import Mathlib

/-!
# LZSS decoding for Animal Crossing: Wild World (`lzww.c`)

A shallow embedding of `LZS_Decode` and of the helpers it calls, followed by
theorems about the container scan, the chunk decoder and the chunk loop.

Conventions of the embedding

* A byte is a `Fin 256`; `unsigned int` / `unsigned char` values are `Nat`
  (none of the arithmetic of the decoder can reach 2^32, except `final_len`,
  which is reduced modulo 2^32).
* Pointers into `pak_buffer` are indices (`pak`, `begin_buffer`), `pak_end` is
  the index `pak_len`.  `raw_buffer` is represented by the list of the bytes
  written so far, so `raw - raw_buffer` is `raw.length` and `raw_end` is the
  index `raw_len`.
* `pak_buffer` is the block returned by `Load`: the file followed by the
  three zero bytes that `Memory (fs + 3)` (a `calloc`) leaves behind it.
  A read outside that block, or a copy that reads before `raw_buffer`, has no
  defined result in C: the embedding stops there with a `fault`.
* The file named `filename` is both the input and the output of
  `LZS_Decode`; `dest` is its content.  `Empty`, `Save` and `Memory` are taken
  to succeed (their failure paths are `exit (-1)` on an I/O or allocation
  error), `Memory` also for a chunk that declares 0 bytes.
* Loops carry a fuel argument; the theorems show that the fuel the callers
  pass is never exhausted.
-/

namespace LZWW

/-- One byte of a file or of a buffer. -/
abbrev Byte := Fin 256

/-- LZSS magic number of a chunk. -/
def CMD_CODE_10 : Nat := 0x10

/-- LZSS magic number of the container. -/
def CMD_CODE_4C : Nat := 0x4C

/-- Bits to shift. -/
def LZS_SHIFT : Nat := 1

/-- Bits to check. -/
def LZS_MASK : Nat := 0x80

/-- Max number of bytes to not encode. -/
def LZS_THRESHOLD : Nat := 2

/-- Header only (empty RAW file). -/
def LZS_MINIM : Nat := 0x00000004

/-- Largest accepted file, 20MB. -/
def LZS_MAXIM : Nat := 0x01400000

/-- The diagnostics `LZS_Decode` and `Load` can print. -/
inductive Msg
  | fileSizeError
  | notWildWorld
  | notLZSS
  | wrongDecodedLength
  | unexpectedEnd
  | moreToDecode
deriving DecidableEq, Repr

/-- What a byte read from `pak_buffer` in the chunk loop is used for. -/
inductive ReadKind
  | header
  | flag
  | literal
  | backref
  | next
  | last
deriving DecidableEq, Repr

/-- The variables of the token loop of one chunk (lines 218-247), with the
diagnostics printed and the indices of `pak_buffer` read so far. -/
structure Cursor where
  pak : Nat
  raw : List Byte
  flags : Nat
  mask : Nat
  msgs : List Msg
  reads : List (ReadKind × Nat)
deriving DecidableEq, Repr

/-- Result of one iteration of the token loop: the loop test is evaluated
again (`next`), the iteration left the loop with `break` (`stop`), or it made
an access outside a buffer (`fault`). -/
inductive Step
  | next (c : Cursor)
  | stop (c : Cursor)
  | fault (c : Cursor)
deriving DecidableEq, Repr

/-- Result of the token loop of one chunk. -/
inductive Loop
  | finished (c : Cursor)
  | fault (c : Cursor)
  | outOfFuel
deriving DecidableEq, Repr

/-- Result of decoding one chunk: the declared length read from the header and
the cursor after the token loop (its `raw` is what `Save` appends). -/
inductive ChunkResult
  | done (raw_len : Nat) (c : Cursor)
  | fault (c : Cursor)
  | outOfFuel
deriving DecidableEq, Repr

/-- Result of the scan for the first chunk magic (lines 182-197). -/
inductive ScanResult
  | found (begin_buffer : Nat)
  | notFound
  | fault
  | outOfFuel
deriving DecidableEq, Repr

/-- How a call of `LZS_Decode` ends: it returns, it calls `exit (-1)`, or it
makes an access outside a buffer. -/
inductive Status
  | returned
  | exited
  | undefined
  | outOfFuel
deriving DecidableEq, Repr

/-- One decoded chunk: where its header starts, the length its header
declares, and the bytes appended to the file for it. -/
structure ChunkRec where
  start : Nat
  declared : Nat
  saved : List Byte
deriving DecidableEq, Repr

/-- The variables of `LZS_Decode` across chunks, the content `dest` of the
file `filename`, whether `Empty` has been called, and the effects so far. -/
structure Run where
  pak : Nat
  flags : Nat
  final_len : Nat
  dest : List Byte
  emptied : Bool
  msgs : List Msg
  reads : List (ReadKind × Nat)
  chunks : List ChunkRec
deriving DecidableEq, Repr

/-- The end of a call of `LZS_Decode`. -/
structure Outcome where
  status : Status
  run : Run
deriving DecidableEq, Repr

/-- `Load`: the file size must lie in `min .. max` (else `File size error`);
the buffer is `Memory (fs + 3)`, zero-filled, with the file read into its
first `fs` bytes, and `*length = fs`.  The size is taken to fit an `int`. -/
def Load (file : List Byte) (min max : Nat) : Option (List Byte × Nat) :=
  let fs := file.length
  if fs < min ∨ fs > max then none
  else some (file ++ List.replicate 3 0, fs)

/-- Line 245, `while (len--) *raw++ = *(raw - pos);`: each byte is read `pos`
bytes before the write position, then the write position advances (the right
operand is taken with the value `raw` has before the increment).  Reading
before the start of `raw_buffer` gives `none`. -/
def copyLoop (pos : Nat) : Nat → List Byte → Option (List Byte)
  | 0, raw => some raw
  | len + 1, raw =>
    if pos ≤ raw.length then
      match raw[raw.length - pos]? with
      | some b => copyLoop pos len (raw ++ [b])
      | none => none
    else none

/-- Lines 234-236: the 16-bit value of a back-reference, first byte high. -/
def refValue (b0 b1 : Byte) : Nat := (b0.val <<< 8) ||| b1.val

/-- Line 238: `len = (pos >> 12) + LZS_THRESHOLD + 1`. -/
def refLength (pos : Nat) : Nat := (pos >>> 12) + LZS_THRESHOLD + 1

/-- Line 244: `pos = (pos & 0xFFF) + 1`. -/
def refOffset (pos : Nat) : Nat := (pos &&& 0xFFF) + 1

/-- Lines 228-246: the token proper, once `flags` and `mask` are set. -/
def tokenBody (mem : List Byte) (pak_len raw_len : Nat) (c : Cursor) : Step :=
  if c.flags &&& c.mask = 0 then
    if c.pak = pak_len then .stop c
    else
      match mem[c.pak]? with
      | some b =>
        .next { c with pak := c.pak + 1, raw := c.raw ++ [b],
                       reads := c.reads ++ [(.literal, c.pak)] }
      | none => .fault { c with reads := c.reads ++ [(.literal, c.pak)] }
  else
    if c.pak + 1 ≥ pak_len then .stop c
    else
      match mem[c.pak]?, mem[c.pak + 1]? with
      | some b0, some b1 =>
        let pos := refValue b0 b1
        let len := refLength pos
        let over := decide (c.raw.length + len > raw_len)
        let len := if over then raw_len - c.raw.length else len
        let msgs := if over then c.msgs ++ [.wrongDecodedLength] else c.msgs
        let pos := refOffset pos
        let c1 := { c with pak := c.pak + 2, msgs := msgs,
                           reads := c.reads ++ [(.backref, c.pak), (.backref, c.pak + 1)] }
        match copyLoop pos len c.raw with
        | some raw => .next { c1 with raw := raw }
        | none => .fault c1
      | _, _ => .fault { c with reads := c.reads ++ [(.backref, c.pak), (.backref, c.pak + 1)] }

/-- Lines 221-246: one iteration of `while (raw < raw_end)`. -/
def tokenStep (mem : List Byte) (pak_len raw_len : Nat) (c : Cursor) : Step :=
  let mask := c.mask >>> LZS_SHIFT
  if mask = 0 then
    if c.pak = pak_len then .stop { c with mask := mask }
    else
      match mem[c.pak]? with
      | some f =>
        tokenBody mem pak_len raw_len
          { c with pak := c.pak + 1, flags := f.val, mask := LZS_MASK,
                   reads := c.reads ++ [(.flag, c.pak)] }
      | none => .fault { c with mask := mask, reads := c.reads ++ [(.flag, c.pak)] }
  else tokenBody mem pak_len raw_len { c with mask := mask }

/-- Lines 220-247: `while (raw < raw_end) { ... }`. -/
def tokenLoop (mem : List Byte) (pak_len raw_len : Nat) : Nat → Cursor → Loop
  | 0, c => if c.raw.length < raw_len then .outOfFuel else .finished c
  | fuel + 1, c =>
    if c.raw.length < raw_len then
      match tokenStep mem pak_len raw_len c with
      | .next c1 => tokenLoop mem pak_len raw_len fuel c1
      | .stop c1 => .finished c1
      | .fault c1 => .fault c1
    else .finished c

/-- Line 208, `*(unsigned int *)pak >> 8` on a little-endian host: the
declared length of the chunk whose header starts at `pak`. -/
def readHeader (mem : List Byte) (pak : Nat) : Option Nat :=
  match mem[pak]?, mem[pak + 1]?, mem[pak + 2]?, mem[pak + 3]? with
  | some b0, some b1, some b2, some b3 =>
    some ((b0.val + 256 * b1.val + 65536 * b2.val + 16777216 * b3.val) >>> 8)
  | _, _, _, _ => none

/-- The reads of the four header bytes. -/
def headerReads (pak : Nat) : List (ReadKind × Nat) :=
  [(.header, pak), (.header, pak + 1), (.header, pak + 2), (.header, pak + 3)]

/-- Lines 208-254: one chunk, from its header at `pak` to the test of
`raw != raw_end`.  `flags` is the value the variable has on entry. -/
def decodeChunk (mem : List Byte) (pak_len pak flags : Nat) : ChunkResult :=
  match readHeader mem pak with
  | none =>
    .fault { pak := pak, raw := [], flags := flags, mask := 0, msgs := [],
             reads := headerReads pak }
  | some raw_len =>
    match tokenLoop mem pak_len raw_len raw_len
        { pak := pak + 4, raw := [], flags := flags, mask := 0, msgs := [],
          reads := headerReads pak } with
    | .finished c =>
      .done raw_len
        (if c.raw.length ≠ raw_len then { c with msgs := c.msgs ++ [.unexpectedEnd] } else c)
    | .fault c => .fault c
    | .outOfFuel => .outOfFuel

/-- Lines 266-273: the test after the chunk loop. -/
def finish (mem : List Byte) (r : Run) : Outcome :=
  match mem[r.pak]? with
  | some b =>
    { status := .returned,
      run := { r with msgs := if b.val = CMD_CODE_10 then r.msgs ++ [.moreToDecode] else r.msgs,
                      reads := r.reads ++ [(.last, r.pak)] } }
  | none => { status := .undefined, run := { r with reads := r.reads ++ [(.last, r.pak)] } }

/-- Lines 205-262: `while (!ended) { ... }`.  After a fault the run keeps the
file, the messages and the reads made so far; the other variables have no
defined value and are left as they were. -/
def chunkLoop (mem : List Byte) (pak_len : Nat) : Nat → Run → Outcome
  | 0, r => { status := .outOfFuel, run := r }
  | fuel + 1, r =>
    match decodeChunk mem pak_len r.pak r.flags with
    | .outOfFuel => { status := .outOfFuel, run := r }
    | .fault c =>
      { status := .undefined,
        run := { r with pak := c.pak, flags := c.flags, msgs := r.msgs ++ c.msgs,
                        reads := r.reads ++ c.reads } }
    | .done raw_len c =>
      let r1 : Run :=
        { pak := c.pak, flags := c.flags,
          final_len := (r.final_len + raw_len) % 4294967296,
          dest := r.dest ++ c.raw, emptied := r.emptied,
          msgs := r.msgs ++ c.msgs,
          reads := r.reads ++ c.reads ++ [(.next, c.pak)],
          chunks := r.chunks ++ [{ start := r.pak, declared := raw_len, saved := c.raw }] }
      match mem[c.pak]? with
      | some b => if b.val ≠ CMD_CODE_10 then finish mem r1 else chunkLoop mem pak_len fuel r1
      | none => { status := .undefined, run := r1 }

/-- Lines 186-197: the loop of the scan. -/
def scanLoop (mem : List Byte) : Nat → Nat → Nat → Nat → ScanResult
  | 0, _, _, _ => .outOfFuel
  | fuel + 1, begin_buffer, lz_header, counter =>
    if lz_header ≠ CMD_CODE_10 then
      match mem[begin_buffer + 2]? with
      | some b =>
        if counter + 1 > 20 then .notFound
        else scanLoop mem fuel (begin_buffer + 2) b.val (counter + 1)
      | none => .fault
    else .found begin_buffer

/-- Lines 182-197: the scan for the first chunk magic. -/
def scan (mem : List Byte) : ScanResult :=
  match mem[10]? with
  | some b => scanLoop mem 22 10 b.val 0
  | none => .fault

/-- The state of `LZS_Decode` before the chunk loop: nothing printed, the
file untouched. -/
def Run.start (file : List Byte) : Run :=
  { pak := 0, flags := 0, final_len := 0, dest := file, emptied := false,
    msgs := [], reads := [], chunks := [] }

/-- `LZS_Decode (filename)`, where `file` is the content of `filename`. -/
def LZS_Decode (file : List Byte) : Outcome :=
  match Load file LZS_MINIM LZS_MAXIM with
  | none => { status := .exited, run := { Run.start file with msgs := [.fileSizeError] } }
  | some (pak_buffer, pak_len) =>
    match pak_buffer[0]? with
    | none => { status := .undefined, run := Run.start file }
    | some header =>
      if header.val ≠ CMD_CODE_4C then
        { status := .exited, run := { Run.start file with msgs := [.notWildWorld] } }
      else
        match scan pak_buffer with
        | .fault => { status := .undefined, run := Run.start file }
        | .outOfFuel => { status := .outOfFuel, run := Run.start file }
        | .notFound => { status := .exited, run := { Run.start file with msgs := [.notLZSS] } }
        | .found begin_buffer =>
          chunkLoop pak_buffer pak_len pak_buffer.length
            { Run.start file with pak := begin_buffer, dest := [], emptied := true }

/-! ### The token stream, as the format describes it -/

/-- A token: a literal byte, or a back-reference `(offset, length)`. -/
inductive Token
  | lit (b : Byte)
  | ref (offset length : Nat)
deriving DecidableEq, Repr

/-- Whether the token is a back-reference (flag bit 1). -/
def Token.isRef : Token → Bool
  | .lit _ => false
  | .ref _ _ => true

/-- Reference expansion of a back-reference: `n` times, append the byte found
`offset` positions before the end of the output. -/
def copyBack (offset : Nat) : Nat → List Byte → List Byte
  | 0, out => out
  | n + 1, out => copyBack offset n (out ++ [out.getD (out.length - offset) 0])

/-- Reference expansion of one token after the output `out`. -/
def expandToken (out : List Byte) : Token → List Byte
  | .lit b => out ++ [b]
  | .ref offset length => copyBack offset length out

/-- Reference LZSS expansion of a token list after the output `out`. -/
def expand (out : List Byte) : List Token → List Byte
  | [] => out
  | t :: ts => expand (expandToken out t) ts

/-- A literal is always admissible; a back-reference needs a length in 3..18
and an offset in 1..4096 that does not exceed the bytes already produced. -/
def Token.valid (produced : Nat) : Token → Bool
  | .lit _ => true
  | .ref offset length =>
    decide (3 ≤ length ∧ length ≤ 18 ∧ 1 ≤ offset ∧ offset ≤ 4096 ∧ offset ≤ produced)

/-- Every token of the list is admissible where it stands. -/
def validTokens (out : List Byte) : List Token → Bool
  | [] => true
  | t :: ts => t.valid out.length && validTokens (expandToken out t) ts

/-- The 4-byte header of a chunk that declares `n` decompressed bytes: the
chunk magic, then `n` as 3 little-endian bytes. -/
def chunkHeader (n : Nat) : List Byte :=
  [16, ⟨n % 256, Nat.mod_lt _ (by decide)⟩, ⟨n / 256 % 256, Nat.mod_lt _ (by decide)⟩,
   ⟨n / 65536 % 256, Nat.mod_lt _ (by decide)⟩]

/-- Serialisation of one token: a literal is its byte, a back-reference the
two big-endian bytes of `(length - 3) << 12 | (offset - 1)`. -/
def tokenBytes : Token → List Byte
  | .lit b => [b]
  | .ref offset length =>
    let v := ((length - 3) <<< 12) ||| (offset - 1)
    [⟨(v >>> 8) % 256, Nat.mod_lt _ (by decide)⟩, ⟨v % 256, Nat.mod_lt _ (by decide)⟩]

/-- The flag bits of the next `r` tokens, the first token on bit `r - 1`. -/
def flagBits : Nat → List Token → Nat
  | 0, _ => 0
  | _ + 1, [] => 0
  | r + 1, t :: ts => (if t.isRef then 2 ^ r else 0) + flagBits r ts

/-- The flag byte of a group of up to 8 tokens, high bit first; unused low
bits are 0. -/
def flagByte (toks : List Token) : Byte :=
  ⟨flagBits 8 toks % 256, Nat.mod_lt _ (by decide)⟩

/-- Serialisation of a token list when `r` more tokens belong to the group of
the last flag byte: with `r = 0` a flag byte for the next (up to) 8 tokens
comes first. -/
def serialiseFrom : Nat → List Token → List Byte
  | _, [] => []
  | 0, t :: ts => flagByte (t :: ts) :: (tokenBytes t ++ serialiseFrom 7 ts)
  | r + 1, t :: ts => tokenBytes t ++ serialiseFrom r ts

/-- The standard serialisation of a token list: one flag byte before each
group of up to 8 tokens. -/
def serialise (toks : List Token) : List Byte := serialiseFrom 0 toks

/-! ### Token numbers, flag reads and all-literal streams -/

/-- The cursor a step leaves, whichever way the iteration ended. -/
def Step.cursor : Step → Cursor
  | .next c => c
  | .stop c => c
  | .fault c => c

/-- The cursor before token number `n` of a chunk: `n` iterations of
`while (raw < raw_end)` from `c`, each of which came back to the loop test;
`none` when the loop ends earlier. -/
def tokenIter (mem : List Byte) (pak_len raw_len : Nat) : Nat → Cursor → Option Cursor
  | 0, c => some c
  | n + 1, c =>
    if c.raw.length < raw_len then
      match tokenStep mem pak_len raw_len c with
      | .next c1 => tokenIter mem pak_len raw_len n c1
      | _ => none
    else none

/-- The value of `mask` before token number `n` of a chunk: 0 at the start,
then the bit tested for token `n - 1`. -/
def maskBefore (n : Nat) : Nat :=
  if n = 0 then 0 else LZS_MASK >>> ((n - 1) % 8)

/-- The cursor with which the token loop of the chunk at `pak` starts (lines
211-218): past the header, nothing written, `mask = 0`. -/
def chunkStart (pak flags : Nat) : Cursor :=
  { pak := pak + 4, raw := [], flags := flags, mask := 0, msgs := [], reads := headerReads pak }

/-- A byte sequence split into groups of up to 8 bytes, each group preceded by
a flag byte 0x00 (`n` bounds the number of groups). -/
def literalGroups : Nat → List Byte → List Byte
  | 0, _ => []
  | n + 1, bs => if bs = [] then [] else 0 :: (bs.take 8 ++ literalGroups n (bs.drop 8))

/-- The all-literal bitstream of a byte sequence. -/
def literalStream (bs : List Byte) : List Byte := literalGroups bs.length bs

/-- The indices at which the flag bytes were read, in order. -/
def flagReads (reads : List (ReadKind × Nat)) : List Nat :=
  (reads.filter (fun x => decide (x.1 = ReadKind.flag))).map Prod.snd

/-! ## Theorems -/

/-! ### Bit operations as arithmetic -/

theorem and_two_pow_eq_zero (x r : Nat) : x &&& 2 ^ r = 0 ↔ x / 2 ^ r % 2 = 0 := by
  rw [Nat.and_two_pow, Nat.testBit_to_div_mod]
  have h2 : 0 < 2 ^ r := Nat.two_pow_pos r
  by_cases h : x / 2 ^ r % 2 = 1
  · simp [h]
  · have h0 : x / 2 ^ r % 2 = 0 := by omega
    simp [h0]

theorem shl8_or (b0 b1 : Byte) : (b0.val <<< 8) ||| b1.val = 256 * b0.val + b1.val := by
  have h := Nat.mul_add_lt_is_or (i := 8) (b := b1.val) (by simp) b0.val
  rw [Nat.shiftLeft_eq, Nat.mul_comm]
  simpa using h.symm

theorem shr12 (v : Nat) : v >>> 12 = v / 4096 := by
  rw [Nat.shiftRight_eq_div_pow]

theorem and_fff (v : Nat) : v &&& 0xFFF = v % 4096 := by
  have h := Nat.and_pow_two_sub_one_eq_mod v 12
  simpa using h

theorem shl12_or (a b : Nat) (hb : b < 4096) : (a <<< 12) ||| b = 4096 * a + b := by
  have h := Nat.mul_add_lt_is_or (i := 12) (b := b) (by simpa using hb) a
  rw [Nat.shiftLeft_eq, Nat.mul_comm]
  simpa using h.symm

/-! ### The copy loop -/

theorem copyLoop_length (pos : Nat) : ∀ (len : Nat) (raw raw1 : List Byte),
    copyLoop pos len raw = some raw1 → raw1.length = raw.length + len := by
  intro len
  induction len with
  | zero => intro raw raw1 h; simp [copyLoop] at h; simp [← h]
  | succ n ih =>
    intro raw raw1 h
    rw [copyLoop] at h
    split at h
    · split at h
      · have := ih _ _ h
        simp at this; omega
      · simp at h
    · simp at h

theorem copyLoop_extends (pos : Nat) : ∀ (len : Nat) (raw raw1 : List Byte),
    copyLoop pos len raw = some raw1 → ∃ tl, raw1 = raw ++ tl := by
  intro len
  induction len with
  | zero => intro raw raw1 h; simp [copyLoop] at h; exact ⟨[], by simp [h]⟩
  | succ n ih =>
    intro raw raw1 h
    rw [copyLoop] at h
    split at h
    · split at h
      · rename_i b _
        obtain ⟨tl, htl⟩ := ih _ _ h
        exact ⟨b :: tl, by rw [htl]; simp⟩
      · simp at h
    · simp at h

theorem copyLoop_eq_copyBack (pos : Nat) (hpos : 1 ≤ pos) : ∀ (len : Nat) (raw : List Byte),
    pos ≤ raw.length → copyLoop pos len raw = some (copyBack pos len raw) := by
  intro len
  induction len with
  | zero => intro raw _; simp [copyLoop, copyBack]
  | succ n ih =>
    intro raw h
    have hlt : raw.length - pos < raw.length := by omega
    rw [copyLoop, copyBack, if_pos h]
    simp only [List.getElem?_eq_getElem hlt]
    rw [ih _ (by simp; omega)]
    simp [List.getD, List.getElem?_eq_getElem hlt]

theorem copyLoop_none (pos : Nat) (len : Nat) (raw : List Byte)
    (h : raw.length < pos) (hl : 0 < len) : copyLoop pos len raw = none := by
  cases len with
  | zero => omega
  | succ n => rw [copyLoop, if_neg (by omega)]

/-! ### One iteration of the token loop -/

theorem tokenBody_next {mem : List Byte} {pak_len raw_len : Nat} {c c1 : Cursor}
    (h : tokenBody mem pak_len raw_len c = .next c1) (hlt : c.raw.length < raw_len) :
    c.raw.length < c1.raw.length ∧ c1.raw.length ≤ raw_len ∧ c.pak < c1.pak ∧
      c1.mask = c.mask ∧ c1.flags = c.flags := by
  unfold tokenBody at h
  split at h
  · split at h
    · simp at h
    · split at h
      · simp only [Step.next.injEq] at h
        subst h
        simp
        omega
      · simp at h
  · split at h
    · simp at h
    · split at h
      · simp only at h
        split at h
        · rename_i raw hcopy
          simp only [Step.next.injEq] at h
          subst h
          have hl := copyLoop_length _ _ _ _ hcopy
          simp only [refLength, LZS_THRESHOLD] at hl
          simp only [hl]
          refine ⟨?_, ?_, by omega, trivial, trivial⟩
          · split <;> simp at * <;> omega
          · split <;> simp at * <;> omega
        · simp at h
      · simp at h

theorem tokenBody_stop {mem : List Byte} {pak_len raw_len : Nat} {c c1 : Cursor}
    (h : tokenBody mem pak_len raw_len c = .stop c1) : c1 = c := by
  unfold tokenBody at h
  split at h
  · split at h
    · simpa using h.symm
    · split at h <;> simp at h
  · split at h
    · simpa using h.symm
    · split at h
      · simp only at h
        split at h <;> simp at h
      · simp at h

theorem tokenStep_next {mem : List Byte} {pak_len raw_len : Nat} {c c1 : Cursor}
    (h : tokenStep mem pak_len raw_len c = .next c1) (hlt : c.raw.length < raw_len) :
    c.raw.length < c1.raw.length ∧ c1.raw.length ≤ raw_len ∧ c.pak < c1.pak := by
  unfold tokenStep at h
  simp only at h
  split at h
  · split at h
    · simp at h
    · split at h
      · have := tokenBody_next h (by simpa using hlt)
        simp at this
        omega
      · simp at h
  · have := tokenBody_next h (by simpa using hlt)
    simp at this
    omega

theorem tokenStep_stop {mem : List Byte} {pak_len raw_len : Nat} {c c1 : Cursor}
    (h : tokenStep mem pak_len raw_len c = .stop c1) :
    c1.raw = c.raw ∧ c.pak ≤ c1.pak ∧ c1.msgs = c.msgs := by
  unfold tokenStep at h
  simp only at h
  split at h
  · split at h
    · simp only [Step.stop.injEq] at h
      subst h
      simp
    · split at h
      · have := tokenBody_stop h
        subst this
        simp
      · simp at h
  · have := tokenBody_stop h
    subst this
    simp

/-! ### The token loop -/

theorem tokenLoop_fuel (mem : List Byte) (pak_len raw_len : Nat) :
    ∀ (fuel : Nat) (c : Cursor), raw_len - c.raw.length ≤ fuel →
      tokenLoop mem pak_len raw_len fuel c ≠ .outOfFuel := by
  intro fuel
  induction fuel with
  | zero =>
    intro c h
    rw [tokenLoop, if_neg (by omega)]
    simp
  | succ n ih =>
    intro c h
    rw [tokenLoop]
    split
    · rename_i hlt
      split
      · rename_i c1 hstep
        have := tokenStep_next hstep hlt
        exact ih c1 (by omega)
      · simp
      · simp
    · simp

theorem tokenLoop_finished (mem : List Byte) (pak_len raw_len : Nat) :
    ∀ (fuel : Nat) (c c1 : Cursor), tokenLoop mem pak_len raw_len fuel c = .finished c1 →
      c.pak ≤ c1.pak ∧ (c.raw.length ≤ raw_len → c1.raw.length ≤ raw_len) := by
  intro fuel
  induction fuel with
  | zero =>
    intro c c1 h
    rw [tokenLoop] at h
    split at h
    · simp at h
    · simp only [Loop.finished.injEq] at h
      subst h
      simp
  | succ n ih =>
    intro c c1 h
    rw [tokenLoop] at h
    split at h
    · rename_i hlt
      split at h
      · rename_i c2 hstep
        have h1 := tokenStep_next hstep hlt
        have h2 := ih c2 c1 h
        exact ⟨by omega, fun _ => h2.2 h1.2.1⟩
      · rename_i c2 hstep
        simp only [Loop.finished.injEq] at h
        subst h
        have h1 := tokenStep_stop hstep
        exact ⟨h1.2.1, fun hr => by rw [h1.1]; exact hr⟩
      · simp at h
    · simp only [Loop.finished.injEq] at h
      subst h
      simp

/-! ### The scan -/

theorem byte_val_eq_magic (b : Byte) : b.val = CMD_CODE_10 ↔ b = 16 := by
  constructor
  · intro h; apply Fin.ext; simpa [CMD_CODE_10] using h
  · intro h; subst h; rfl

theorem scanLoop_char (mem : List Byte) :
    ∀ (fuel begin_buffer counter : Nat) (b : Byte), mem[begin_buffer]? = some b →
      counter ≤ 20 → 22 ≤ fuel + counter →
      (∀ x, scanLoop mem fuel begin_buffer b.val counter = .found x →
        ∃ j, counter + j ≤ 20 ∧ x = begin_buffer + 2 * j ∧ mem[x]? = some 16 ∧
          ∀ i, i < j → mem[begin_buffer + 2 * i]? ≠ some 16) ∧
      (scanLoop mem fuel begin_buffer b.val counter = .notFound →
        (∀ j, counter + j ≤ 20 → mem[begin_buffer + 2 * j]? ≠ some 16) ∧
          begin_buffer + 2 * (21 - counter) < mem.length) ∧
      (scanLoop mem fuel begin_buffer b.val counter = .fault →
        (∀ j, counter + j ≤ 20 → mem[begin_buffer + 2 * j]? ≠ some 16) ∧
          mem.length ≤ begin_buffer + 2 * (21 - counter)) ∧
      scanLoop mem fuel begin_buffer b.val counter ≠ .outOfFuel := by
  intro fuel
  induction fuel with
  | zero => intro _ counter _ _ _ _; omega
  | succ n ih =>
    intro bb counter b hb hc hf
    rw [scanLoop]
    by_cases hm : b.val = CMD_CODE_10
    · rw [if_neg (by simpa using hm)]
      have hb16 : b = 16 := (byte_val_eq_magic b).1 hm
      refine ⟨?_, by simp, by simp, by simp⟩
      intro x hx
      simp only [ScanResult.found.injEq] at hx
      subst hx
      exact ⟨0, by omega, by simp, by simpa [hb16] using hb, fun i hi => by omega⟩
    · rw [if_pos hm]
      have hb16 : b ≠ 16 := fun h => hm ((byte_val_eq_magic b).2 h)
      have h0 : mem[bb + 2 * 0]? ≠ some 16 := by
        simp only [Nat.mul_zero, Nat.add_zero, hb]
        intro h; exact hb16 (by simpa using h)
      cases hnext : mem[bb + 2]? with
      | none =>
        have hlen : mem.length ≤ bb + 2 := by simpa using hnext
        refine ⟨by simp, by simp, ?_, by simp⟩
        intro _
        refine ⟨?_, by omega⟩
        intro j _
        rcases Nat.eq_zero_or_pos j with hj | hj
        · subst hj; exact h0
        · have : mem[bb + 2 * j]? = none := by
            apply List.getElem?_eq_none; omega
          simp [this]
      | some b1 =>
        simp only
        by_cases h20 : counter + 1 > 20
        · rw [if_pos h20]
          have hlen : bb + 2 < mem.length := by
            rcases List.getElem?_eq_some.1 hnext with ⟨h, _⟩; exact h
          refine ⟨by simp, ?_, by simp, by simp⟩
          intro _
          refine ⟨?_, by omega⟩
          intro j hj
          have : j = 0 := by omega
          subst this; exact h0
        · rw [if_neg h20]
          obtain ⟨i1, i2, i3, i4⟩ := ih (bb + 2) (counter + 1) b1 hnext (by omega) (by omega)
          refine ⟨?_, ?_, ?_, i4⟩
          · intro x hx
            obtain ⟨j, hj1, hj2, hj3, hj4⟩ := i1 x hx
            refine ⟨j + 1, by omega, by omega, hj3, ?_⟩
            intro i hi
            rcases Nat.eq_zero_or_pos i with hi0 | hi0
            · subst hi0; exact h0
            · have := hj4 (i - 1) (by omega)
              have e : bb + 2 + 2 * (i - 1) = bb + 2 * i := by omega
              rwa [e] at this
          · intro hx
            obtain ⟨hj1, hj2⟩ := i2 hx
            refine ⟨?_, by omega⟩
            intro j hj
            rcases Nat.eq_zero_or_pos j with hj0 | hj0
            · subst hj0; exact h0
            · have := hj1 (j - 1) (by omega)
              have e : bb + 2 + 2 * (j - 1) = bb + 2 * j := by omega
              rwa [e] at this
          · intro hx
            obtain ⟨hj1, hj2⟩ := i3 hx
            refine ⟨?_, by omega⟩
            intro j hj
            rcases Nat.eq_zero_or_pos j with hj0 | hj0
            · subst hj0; exact h0
            · have := hj1 (j - 1) (by omega)
              have e : bb + 2 + 2 * (j - 1) = bb + 2 * j := by omega
              rwa [e] at this

theorem scan_char (mem : List Byte) :
    (∀ x, scan mem = .found x →
      ∃ j, j ≤ 20 ∧ x = 10 + 2 * j ∧ mem[x]? = some 16 ∧
        ∀ i, i < j → mem[10 + 2 * i]? ≠ some 16) ∧
    (scan mem = .notFound →
      (∀ j, j ≤ 20 → mem[10 + 2 * j]? ≠ some 16) ∧ 52 < mem.length) ∧
    (scan mem = .fault →
      (∀ j, j ≤ 20 → mem[10 + 2 * j]? ≠ some 16) ∧ mem.length ≤ 52) ∧
    scan mem ≠ .outOfFuel := by
  unfold scan
  cases h10 : mem[10]? with
  | none =>
    have hlen : mem.length ≤ 10 := by simpa using h10
    refine ⟨by simp, by simp, ?_, by simp⟩
    intro _
    refine ⟨?_, by omega⟩
    intro j _
    have : mem[10 + 2 * j]? = none := by apply List.getElem?_eq_none; omega
    simp [this]
  | some b =>
    simp only
    obtain ⟨i1, i2, i3, i4⟩ := scanLoop_char mem 22 10 0 b h10 (by omega) (by omega)
    refine ⟨?_, ?_, ?_, i4⟩
    · intro x hx
      obtain ⟨j, hj⟩ := i1 x hx
      exact ⟨j, by omega, hj.2⟩
    · intro hx
      obtain ⟨h1, h2⟩ := i2 hx
      exact ⟨fun j hj => h1 j (by omega), by omega⟩
    · intro hx
      obtain ⟨h1, h2⟩ := i3 hx
      exact ⟨fun j hj => h1 j (by omega), by omega⟩

/-! ### One chunk -/

theorem decodeChunk_ne_outOfFuel (mem : List Byte) (pak_len pak flags : Nat) :
    decodeChunk mem pak_len pak flags ≠ .outOfFuel := by
  unfold decodeChunk
  split
  · simp
  · rename_i raw_len _
    split
    · simp
    · simp
    · rename_i hloop
      exact absurd hloop (tokenLoop_fuel mem pak_len raw_len raw_len _ (by simp))

theorem decodeChunk_done {mem : List Byte} {pak_len pak flags raw_len : Nat} {c : Cursor}
    (h : decodeChunk mem pak_len pak flags = .done raw_len c) :
    readHeader mem pak = some raw_len ∧ pak + 4 ≤ c.pak ∧ c.raw.length ≤ raw_len ∧
      (c.raw.length ≠ raw_len → Msg.unexpectedEnd ∈ c.msgs) := by
  unfold decodeChunk at h
  split at h
  · simp at h
  · rename_i rl hrl
    split at h
    · rename_i c1 hloop
      simp only [ChunkResult.done.injEq] at h
      obtain ⟨h1, h2⟩ := h
      subst h1
      have hf := tokenLoop_finished mem pak_len rl rl _ c1 hloop
      simp only [List.length_nil, Nat.zero_le, forall_const] at hf
      subst h2
      by_cases hc : c1.raw.length = rl
      · simp only [hc, ne_eq, not_true_eq_false, if_false]
        exact ⟨hrl, by omega, by omega, fun hne => absurd hne id⟩
      · simp only [ne_eq, hc, not_false_eq_true, if_true]
        exact ⟨hrl, by omega, by omega, fun _ => by simp⟩
    · simp at h
    · simp at h

/-! ### The chunk loop -/

theorem finish_char (mem : List Byte) (r : Run) :
    (finish mem r).run.chunks = r.chunks ∧ (finish mem r).run.dest = r.dest ∧
      (∃ tl, (finish mem r).run.msgs = r.msgs ++ tl ∧ Msg.unexpectedEnd ∉ tl) ∧
      (finish mem r).run.emptied = r.emptied ∧
      ((finish mem r).status = .returned ∨ (finish mem r).status = .undefined) := by
  unfold finish
  split
  · refine ⟨rfl, rfl, ?_, rfl, Or.inl rfl⟩
    split
    · exact ⟨[.moreToDecode], rfl, by simp⟩
    · exact ⟨[], by simp, by simp⟩
  · exact ⟨rfl, rfl, ⟨[], by simp, by simp⟩, rfl, Or.inr rfl⟩

theorem chunkLoop_inv (mem : List Byte) (pak_len : Nat) :
    ∀ (fuel : Nat) (r : Run), ∃ cs tl,
      (chunkLoop mem pak_len fuel r).run.chunks = r.chunks ++ cs ∧
      (chunkLoop mem pak_len fuel r).run.dest = r.dest ++ (cs.map ChunkRec.saved).flatten ∧
      (chunkLoop mem pak_len fuel r).run.msgs = r.msgs ++ tl ∧
      (chunkLoop mem pak_len fuel r).run.emptied = r.emptied ∧
      (chunkLoop mem pak_len fuel r).status ≠ .exited ∧
      ∀ ch, ch ∈ cs → ch.saved.length ≤ ch.declared ∧
        (ch.saved.length ≠ ch.declared → Msg.unexpectedEnd ∈ tl) ∧
        ∃ flags c, decodeChunk mem pak_len ch.start flags = .done ch.declared c ∧
          ch.saved = c.raw := by
  intro fuel
  induction fuel with
  | zero =>
    intro r
    exact ⟨[], [], by simp [chunkLoop]⟩
  | succ n ih =>
    intro r
    rw [chunkLoop]
    split
    · exact ⟨[], [], by simp⟩
    · rename_i c _
      exact ⟨[], c.msgs, by simp⟩
    · rename_i raw_len c hdone
      obtain ⟨_, _, hle, hwarn⟩ := decodeChunk_done hdone
      simp only
      split
      · rename_i b _
        split
        · obtain ⟨f1, f2, ⟨tl, f3, f3n⟩, f4, f5⟩ := finish_char mem
            { pak := c.pak, flags := c.flags,
              final_len := (r.final_len + raw_len) % 4294967296,
              dest := r.dest ++ c.raw, emptied := r.emptied,
              msgs := r.msgs ++ c.msgs,
              reads := r.reads ++ c.reads ++ [(.next, c.pak)],
              chunks := r.chunks ++ [{ start := r.pak, declared := raw_len, saved := c.raw }] }
          refine ⟨[{ start := r.pak, declared := raw_len, saved := c.raw }], c.msgs ++ tl,
            f1, ?_, ?_, f4, ?_, ?_⟩
          · rw [f2]; simp
          · rw [f3]; simp
          · intro hex
            rcases f5 with h | h <;> rw [h] at hex <;> cases hex
          · intro ch hch
            simp only [List.mem_singleton] at hch
            subst hch
            exact ⟨hle, fun hne => List.mem_append_left _ (hwarn hne), r.flags, c, hdone, rfl⟩
        · obtain ⟨cs, tl, i1, i2, i3, i4, i5, i6⟩ := ih
            { pak := c.pak, flags := c.flags,
              final_len := (r.final_len + raw_len) % 4294967296,
              dest := r.dest ++ c.raw, emptied := r.emptied,
              msgs := r.msgs ++ c.msgs,
              reads := r.reads ++ c.reads ++ [(.next, c.pak)],
              chunks := r.chunks ++ [{ start := r.pak, declared := raw_len, saved := c.raw }] }
          refine ⟨{ start := r.pak, declared := raw_len, saved := c.raw } :: cs, c.msgs ++ tl,
            ?_, ?_, ?_, i4, i5, ?_⟩
          · rw [i1]; simp
          · rw [i2]; simp
          · rw [i3]; simp
          · intro ch hch
            rcases List.mem_cons.1 hch with h | h
            · subst h
              exact ⟨hle, fun hne => List.mem_append_left _ (hwarn hne), r.flags, c, hdone, rfl⟩
            · obtain ⟨a, b, d⟩ := i6 ch h
              exact ⟨a, fun hne => List.mem_append_right _ (b hne), d⟩
      · refine ⟨[{ start := r.pak, declared := raw_len, saved := c.raw }], c.msgs,
          by simp, by simp, by simp, by simp, by simp, ?_⟩
        intro ch hch
        simp only [List.mem_singleton] at hch
        subst hch
        exact ⟨hle, hwarn, r.flags, c, hdone, rfl⟩

theorem chunkLoop_fuel (mem : List Byte) (pak_len : Nat) :
    ∀ (fuel : Nat) (r : Run), r.pak < mem.length → mem.length - r.pak ≤ fuel →
      (chunkLoop mem pak_len fuel r).status = .returned ∨
        (chunkLoop mem pak_len fuel r).status = .undefined := by
  intro fuel
  induction fuel with
  | zero => intro r h1 h2; omega
  | succ n ih =>
    intro r h1 h2
    rw [chunkLoop]
    split
    · rename_i h
      exact absurd h (decodeChunk_ne_outOfFuel _ _ _ _)
    · simp
    · rename_i raw_len c hdone
      obtain ⟨_, hpak, _, _⟩ := decodeChunk_done hdone
      simp only
      split
      · rename_i b hb
        have hlt : c.pak < mem.length := by
          rcases List.getElem?_eq_some.1 hb with ⟨h, _⟩; exact h
        split
        · exact (finish_char mem _).2.2.2.2
        · exact ih _ hlt (by simp only; omega)
      · simp

/-! ### The reference expansion and the serialisation -/

theorem copyBack_length (offset : Nat) : ∀ (n : Nat) (out : List Byte),
    (copyBack offset n out).length = out.length + n := by
  intro n
  induction n with
  | zero => intro out; simp [copyBack]
  | succ n ih => intro out; rw [copyBack, ih]; simp; omega

theorem expandToken_length (out : List Byte) (t : Token) (h : t.valid out.length = true) :
    out.length < (expandToken out t).length := by
  cases t with
  | lit b => simp [expandToken]
  | ref o l =>
    simp only [Token.valid, decide_eq_true_eq] at h
    simp only [expandToken, copyBack_length]
    omega

theorem expand_length_le : ∀ (toks : List Token) (out : List Byte),
    validTokens out toks = true → out.length ≤ (expand out toks).length := by
  intro toks
  induction toks with
  | nil => intro out _; simp [expand]
  | cons t ts ih =>
    intro out h
    simp only [validTokens, Bool.and_eq_true] at h
    have h1 := expandToken_length out t h.1
    have h2 := ih _ h.2
    simp only [expand]
    omega

theorem flagBits_lt : ∀ (r : Nat) (toks : List Token), flagBits r toks < 2 ^ r := by
  intro r
  induction r with
  | zero => intro toks; simp [flagBits]
  | succ r ih =>
    intro toks
    cases toks with
    | nil => simp only [flagBits]; exact Nat.two_pow_pos _
    | cons t ts =>
      simp only [flagBits]
      have := ih ts
      rw [Nat.pow_succ]
      split <;> omega

theorem bit_test (r q x : Nat) (b : Bool) (hx : x < 2 ^ r) :
    ((2 ^ (r + 1) * q + (if b = true then 2 ^ r else 0) + x) &&& 2 ^ r = 0) ↔ b = false := by
  rw [and_two_pow_eq_zero]
  have hp : 0 < 2 ^ r := Nat.two_pow_pos r
  have e : 2 ^ (r + 1) * q + (if b = true then 2 ^ r else 0) + x
      = x + 2 ^ r * (2 * q + (if b = true then 1 else 0)) := by
    rw [Nat.pow_succ]
    cases b <;> simp <;> ring
  rw [e, Nat.add_mul_div_left _ _ hp, Nat.div_eq_of_lt hx]
  cases b <;> simp <;> omega

theorem drop_append_getElem? {mem bs rest : List Byte} {p : Nat}
    (h : mem.drop p = bs ++ rest) (i : Nat) (hi : i < bs.length) :
    mem[p + i]? = bs[i]? := by
  rw [← List.getElem?_drop, h, List.getElem?_append_left hi]

theorem drop_append_drop {mem bs rest : List Byte} {p : Nat}
    (h : mem.drop p = bs ++ rest) : mem.drop (p + bs.length) = rest := by
  have := congrArg (List.drop bs.length) h
  simpa [List.drop_drop, Nat.add_comm] using this

theorem tokenBytes_ref (o l : Nat) (ho : o - 1 < 4096) :
    tokenBytes (.ref o l) =
      [⟨(4096 * (l - 3) + (o - 1)) / 256 % 256, Nat.mod_lt _ (by decide)⟩,
       ⟨(4096 * (l - 3) + (o - 1)) % 256, Nat.mod_lt _ (by decide)⟩] := by
  simp only [tokenBytes, shl12_or _ _ ho, Nat.shiftRight_eq_div_pow]

theorem ref_bytes (o l : Nat) (h : 3 ≤ l ∧ l ≤ 18 ∧ 1 ≤ o ∧ o ≤ 4096) :
    ∃ b0 b1 : Byte, tokenBytes (.ref o l) = [b0, b1] ∧
      refLength (refValue b0 b1) = l ∧ refOffset (refValue b0 b1) = o := by
  refine ⟨_, _, tokenBytes_ref o l (by omega), ?_, ?_⟩
  · rw [refLength, refValue, shl8_or, shr12]
    simp only [LZS_THRESHOLD]
    omega
  · rw [refOffset, refValue, shl8_or, and_fff]
    simp only []
    omega

theorem tokenBytes_length_pos (t : Token) : 0 < (tokenBytes t).length := by
  cases t <;> simp [tokenBytes]

theorem tokenBody_token (mem : List Byte) (pak_len raw_len : Nat) (c : Cursor) (t : Token)
    (rest : List Byte)
    (hmem : mem.drop c.pak = tokenBytes t ++ rest)
    (hpl : c.pak + (tokenBytes t).length ≤ pak_len)
    (hflag : (c.flags &&& c.mask = 0) ↔ t.isRef = false)
    (hvalid : t.valid c.raw.length = true)
    (hroom : (expandToken c.raw t).length ≤ raw_len) :
    ∃ rd, tokenBody mem pak_len raw_len c =
      .next { c with pak := c.pak + (tokenBytes t).length, raw := expandToken c.raw t,
                     reads := rd } := by
  cases t with
  | lit b =>
    have h0 : c.flags &&& c.mask = 0 := hflag.2 rfl
    have hb : mem[c.pak]? = some b := by
      have := drop_append_getElem? hmem 0 (by simp [tokenBytes])
      simpa [tokenBytes] using this
    have hne : c.pak ≠ pak_len := by simp [tokenBytes] at hpl; omega
    refine ⟨c.reads ++ [(.literal, c.pak)], ?_⟩
    unfold tokenBody
    rw [if_pos h0, if_neg hne]
    simp [hb, tokenBytes, expandToken]
  | ref o l =>
    have hv : 3 ≤ l ∧ l ≤ 18 ∧ 1 ≤ o ∧ o ≤ 4096 ∧ o ≤ c.raw.length := by
      simpa [Token.valid] using hvalid
    obtain ⟨b0, b1, hbytes, hlen, hoff⟩ := ref_bytes o l ⟨hv.1, hv.2.1, hv.2.2.1, hv.2.2.2.1⟩
    rw [hbytes] at hmem hpl
    have h0 : ¬ (c.flags &&& c.mask = 0) := fun h => by
      have := hflag.1 h
      simp [Token.isRef] at this
    have hb0 : mem[c.pak]? = some b0 := by
      have := drop_append_getElem? hmem 0 (by simp)
      simpa using this
    have hb1 : mem[c.pak + 1]? = some b1 := by
      have := drop_append_getElem? hmem 1 (by simp)
      simpa using this
    have hne : ¬ (c.pak + 1 ≥ pak_len) := by simp at hpl; omega
    have hroom1 : ¬ (c.raw.length + l > raw_len) := by
      simp only [expandToken, copyBack_length] at hroom
      omega
    refine ⟨c.reads ++ [(.backref, c.pak), (.backref, c.pak + 1)], ?_⟩
    unfold tokenBody
    rw [if_neg h0, if_neg hne]
    simp only [hb0, hb1, hlen, hoff, hroom1, decide_False, Bool.false_eq_true, if_false,
      copyLoop_eq_copyBack o hv.2.2.1 l c.raw hv.2.2.2.2, hbytes, expandToken]
    simp

theorem tokenLoop_serialised (mem : List Byte) (pak_len raw_len : Nat) :
    ∀ (toks : List Token) (r : Nat) (c : Cursor) (rest : List Byte) (fuel : Nat),
      mem.drop c.pak = serialiseFrom r toks ++ rest →
      c.pak + (serialiseFrom r toks).length ≤ pak_len →
      validTokens c.raw toks = true →
      (expand c.raw toks).length ≤ raw_len →
      (r = 0 → c.mask >>> LZS_SHIFT = 0) →
      (r ≠ 0 → r ≤ 7 ∧ c.mask = 2 ^ r ∧ ∃ q, c.flags = 2 ^ r * q + flagBits r toks) →
      ∃ c1, tokenLoop mem pak_len raw_len (fuel + toks.length) c
              = tokenLoop mem pak_len raw_len fuel c1 ∧
            c1.pak = c.pak + (serialiseFrom r toks).length ∧
            c1.raw = expand c.raw toks ∧ c1.msgs = c.msgs := by
  intro toks
  induction toks with
  | nil =>
    intro r c rest fuel _ _ _ _ _ _
    exact ⟨c, by simp, by cases r <;> simp [serialiseFrom], by simp [expand], rfl⟩
  | cons t ts ih =>
    intro r c rest fuel hmem hpl hvalid hroom hr0 hr
    simp only [validTokens, Bool.and_eq_true] at hvalid
    obtain ⟨hvt, hvts⟩ := hvalid
    simp only [expand] at hroom
    have hgrow := expandToken_length c.raw t hvt
    have hmono := expand_length_le ts _ hvts
    have hlt : c.raw.length < raw_len := by omega
    -- the cursor once `flags` and `mask` are set for this token
    have key : ∃ (c2 : Cursor) (r1 : Nat) (q : Nat),
        tokenStep mem pak_len raw_len c = tokenBody mem pak_len raw_len c2 ∧
        r1 ≤ 7 ∧ c2.mask = 2 ^ r1 ∧
        c2.flags = 2 ^ (r1 + 1) * q + (if t.isRef = true then 2 ^ r1 else 0) + flagBits r1 ts ∧
        c2.raw = c.raw ∧ c2.msgs = c.msgs ∧
        mem.drop c2.pak = tokenBytes t ++ (serialiseFrom r1 ts ++ rest) ∧
        c2.pak + (tokenBytes t).length + (serialiseFrom r1 ts).length
          = c.pak + (serialiseFrom r (t :: ts)).length := by
      cases r with
      | zero =>
        have hm := hr0 rfl
        simp only [serialiseFrom, List.cons_append, List.append_assoc] at hmem
        have hf : mem[c.pak]? = some (flagByte (t :: ts)) := by
          have := @drop_append_getElem? mem [flagByte (t :: ts)] _ c.pak hmem 0 (by simp)
          simpa using this
        have hne : c.pak ≠ pak_len := by
          simp only [serialiseFrom, List.length_cons] at hpl; omega
        have hfv : (flagByte (t :: ts)).val
            = 2 ^ (7 + 1) * 0 + (if t.isRef = true then 2 ^ 7 else 0) + flagBits 7 ts := by
          have h8 := flagBits_lt 8 (t :: ts)
          simp only [flagByte]
          rw [Nat.mod_eq_of_lt (by simpa using h8)]
          simp [flagBits]
        refine ⟨{ c with pak := c.pak + 1, flags := (flagByte (t :: ts)).val, mask := LZS_MASK,
                         reads := c.reads ++ [(.flag, c.pak)] }, 7, 0, ?_, by omega, rfl, hfv,
                rfl, rfl, ?_, ?_⟩
        · unfold tokenStep
          simp only [hm, if_true, if_neg hne, hf]
        · have := @drop_append_drop mem [flagByte (t :: ts)] _ c.pak hmem
          simpa using this
        · simp only [serialiseFrom, List.length_cons, List.length_append]; omega
      | succ r1 =>
        obtain ⟨h7, hmask, q, hq⟩ := hr (by omega)
        have hm : c.mask >>> LZS_SHIFT = 2 ^ r1 := by
          rw [hmask, LZS_SHIFT, Nat.shiftRight_eq_div_pow, Nat.pow_succ]
          simp
        have hm0 : ¬ (c.mask >>> LZS_SHIFT = 0) := by
          rw [hm]; exact Nat.pos_iff_ne_zero.1 (Nat.two_pow_pos r1)
        simp only [serialiseFrom, List.append_assoc] at hmem
        refine ⟨{ c with mask := c.mask >>> LZS_SHIFT }, r1, q, ?_, by omega, hm, ?_,
                rfl, rfl, hmem, ?_⟩
        · unfold tokenStep
          simp only [if_neg hm0]
        · simp only [hq, flagBits]; omega
        · simp only [serialiseFrom, List.length_append]; omega
    obtain ⟨c2, r1, q, hstep, hr1, hmask2, hflags2, hraw2, hmsgs2, hmem2, hlen2⟩ := key
    have hflag : (c2.flags &&& c2.mask = 0) ↔ t.isRef = false := by
      rw [hflags2, hmask2]
      exact bit_test r1 q _ t.isRef (flagBits_lt r1 ts)
    obtain ⟨rd, hbody⟩ := tokenBody_token mem pak_len raw_len c2 t (serialiseFrom r1 ts ++ rest)
      hmem2 (by omega) hflag (by rw [hraw2]; exact hvt) (by rw [hraw2]; omega)
    have hmem3 := drop_append_drop hmem2
    obtain ⟨c1, e1, e2, e3, e4⟩ := ih r1
      { c2 with pak := c2.pak + (tokenBytes t).length, raw := expandToken c2.raw t, reads := rd }
      rest fuel hmem3 (by simp only; omega) (by simp only [hraw2]; exact hvts)
      (by simp only [hraw2]; exact hroom)
      (by intro h; subst h; simp [hmask2, LZS_SHIFT])
      (by
        intro h
        refine ⟨hr1, hmask2, 2 * q + (if t.isRef = true then 1 else 0), ?_⟩
        simp only [hflags2, Nat.pow_succ]
        split <;> ring)
    refine ⟨c1, ?_, ?_, ?_, ?_⟩
    · have : fuel + (t :: ts).length = (fuel + ts.length) + 1 := by simp; omega
      rw [this, tokenLoop, if_pos hlt, hstep, hbody]
      exact e1
    · rw [e2]; simp only; omega
    · rw [e3]; simp only [hraw2, expand]
    · rw [e4]; exact hmsgs2

theorem tokenLoop_full (mem : List Byte) (pak_len raw_len : Nat) (fuel : Nat) (c : Cursor)
    (h : raw_len ≤ c.raw.length) : tokenLoop mem pak_len raw_len fuel c = .finished c := by
  cases fuel <;> rw [tokenLoop, if_neg (by omega)]

theorem tokens_length_le : ∀ (toks : List Token) (out : List Byte),
    validTokens out toks = true → out.length + toks.length ≤ (expand out toks).length := by
  intro toks
  induction toks with
  | nil => intro out _; simp [expand]
  | cons t ts ih =>
    intro out h
    simp only [validTokens, Bool.and_eq_true] at h
    have h1 := expandToken_length out t h.1
    have h2 := ih _ h.2
    simp only [expand, List.length_cons]
    omega

theorem readHeader_append (pre post : List Byte) (b0 b1 b2 b3 : Byte) :
    readHeader (pre ++ b0 :: b1 :: b2 :: b3 :: post) pre.length
      = some (b1.val + 256 * b2.val + 65536 * b3.val) := by
  have e0 : (pre ++ b0 :: b1 :: b2 :: b3 :: post)[pre.length]? = some b0 := by
    rw [List.getElem?_append_right (Nat.le_refl _)]; simp
  have e1 : (pre ++ b0 :: b1 :: b2 :: b3 :: post)[pre.length + 1]? = some b1 := by
    rw [List.getElem?_append_right (by omega)]; simp
  have e2 : (pre ++ b0 :: b1 :: b2 :: b3 :: post)[pre.length + 2]? = some b2 := by
    rw [List.getElem?_append_right (by omega)]; simp
  have e3 : (pre ++ b0 :: b1 :: b2 :: b3 :: post)[pre.length + 3]? = some b3 := by
    rw [List.getElem?_append_right (by omega)]; simp
  simp only [readHeader, e0, e1, e2, e3, Nat.shiftRight_eq_div_pow]
  congr 1
  omega

theorem decodeChunk_serialised (toks : List Token) (pre post : List Byte) (b0 b1 b2 b3 : Byte)
    (pak_len flags : Nat)
    (hvalid : validTokens [] toks = true)
    (hlen : (expand [] toks).length = b1.val + 256 * b2.val + 65536 * b3.val)
    (hend : pre.length + 4 + (serialise toks).length ≤ pak_len) :
    ∃ c, decodeChunk (pre ++ b0 :: b1 :: b2 :: b3 :: (serialise toks ++ post)) pak_len
            pre.length flags = .done (expand [] toks).length c ∧
         c.raw = expand [] toks ∧ c.pak = pre.length + 4 + (serialise toks).length ∧
         c.msgs = [] := by
  have hn := tokens_length_le toks [] hvalid
  simp only [List.length_nil, Nat.zero_add] at hn
  have hdrop : (pre ++ b0 :: b1 :: b2 :: b3 :: (serialise toks ++ post)).drop (pre.length + 4)
      = serialiseFrom 0 toks ++ post := by
    rw [← List.drop_drop, List.drop_left]
    rfl
  obtain ⟨c1, e1, e2, e3, e4⟩ := tokenLoop_serialised
    (pre ++ b0 :: b1 :: b2 :: b3 :: (serialise toks ++ post)) pak_len (expand [] toks).length
    toks 0
    { pak := pre.length + 4, raw := [], flags := flags, mask := 0, msgs := [],
      reads := headerReads pre.length }
    post ((expand [] toks).length - toks.length) hdrop hend hvalid (Nat.le_refl _)
    (by intro _; simp) (by intro h; exact absurd rfl h)
  rw [Nat.sub_add_cancel hn] at e1
  rw [tokenLoop_full _ _ _ _ c1 (by rw [e3])] at e1
  refine ⟨c1, ?_, e3, e2, e4⟩
  unfold decodeChunk
  rw [readHeader_append, ← hlen]
  simp only [e1]
  rw [if_neg (by rw [e3]; simp)]

/-! ### All-literal chunks -/

theorem expand_lits : ∀ (bs out : List Byte), expand out (bs.map Token.lit) = out ++ bs := by
  intro bs
  induction bs with
  | nil => intro out; simp [expand]
  | cons b bs ih => intro out; simp [expand, expandToken, ih]

theorem validTokens_lits : ∀ (bs out : List Byte), validTokens out (bs.map Token.lit) = true := by
  intro bs
  induction bs with
  | nil => intro out; simp [validTokens]
  | cons b bs ih => intro out; simp [validTokens, Token.valid, ih]

theorem flagBits_lits : ∀ (r : Nat) (bs : List Byte), flagBits r (bs.map Token.lit) = 0 := by
  intro r
  induction r with
  | zero => intro bs; simp [flagBits]
  | succ r ih =>
    intro bs
    cases bs with
    | nil => simp [flagBits]
    | cons b bs => simp [flagBits, Token.isRef, ih]

theorem serialiseFrom_lits : ∀ (bs : List Byte) (r : Nat), bs.length ≤ r →
    serialiseFrom r (bs.map Token.lit) = bs := by
  intro bs
  induction bs with
  | nil => intro r _; cases r <;> simp [serialiseFrom]
  | cons b bs ih =>
    intro r h
    cases r with
    | zero => simp at h
    | succ r =>
      simp only [List.map_cons, serialiseFrom, tokenBytes, List.singleton_append]
      rw [ih r (by simpa using h)]

theorem serialise_lits (b : Byte) (bs : List Byte) (h : bs.length ≤ 7) :
    serialise ((b :: bs).map Token.lit) = 0 :: b :: bs := by
  have hf : flagByte (Token.lit b :: bs.map Token.lit) = 0 := by
    apply Fin.ext
    have := flagBits_lits 8 (b :: bs)
    simp only [List.map_cons] at this
    simp [flagByte, this]
  simp only [serialise, List.map_cons, serialiseFrom, tokenBytes, List.singleton_append, hf]
  rw [serialiseFrom_lits bs 7 h]

theorem chunkHeader_small (n : Nat) (h : n < 256) :
    chunkHeader n = [16, ⟨n, h⟩, 0, 0] := by
  simp only [chunkHeader]
  have e1 : n % 256 = n := Nat.mod_eq_of_lt h
  have e2 : n / 256 % 256 = 0 := by omega
  have e3 : n / 65536 % 256 = 0 := by omega
  simp only [e1, e2, e3]
  rfl

/-- Claim C1: for every token list that is valid from an empty output (literals,
and back-references with length in 3..18 and offset in 1..4096 not exceeding
the bytes already produced) and whose reference expansion has exactly the
length declared by the header bytes `b1 b2 b3`, the chunk decoder run on the
header `0x10 b1 b2 b3` followed by the standard serialisation of the tokens
(anywhere in a buffer, with `pak_end` not before the end of the serialisation)
ends with exactly the reference expansion as its output, no warning, and the
cursor just past the serialisation. -/
theorem C1_chunk_roundtrip (toks : List Token) (pre post : List Byte) (b1 b2 b3 : Byte)
    (pak_len flags : Nat)
    (hvalid : validTokens [] toks = true)
    (hlen : (expand [] toks).length = b1.val + 256 * b2.val + 65536 * b3.val)
    (hend : pre.length + 4 + (serialise toks).length ≤ pak_len) :
    ∃ c, decodeChunk (pre ++ [16, b1, b2, b3] ++ serialise toks ++ post) pak_len
            pre.length flags = .done (b1.val + 256 * b2.val + 65536 * b3.val) c ∧
         c.raw = expand [] toks ∧ c.msgs = [] ∧
         c.pak = pre.length + 4 + (serialise toks).length := by
  obtain ⟨c, h1, h2, h3, h4⟩ :=
    decodeChunk_serialised toks pre post 16 b1 b2 b3 pak_len flags hvalid hlen hend
  refine ⟨c, ?_, h2, h4, h3⟩
  rw [← hlen, ← h1]
  simp

/-- Claim C1 at the tokens A, B, a back-reference (offset 2, length 5), C. -/
theorem C1_chunk_roundtrip_witness :
    validTokens [] [.lit 65, .lit 66, .ref 2 5, .lit 67] = true ∧
    (expand [] [.lit 65, .lit 66, .ref 2 5, .lit 67]).length
      = (8 : Byte).val + 256 * (0 : Byte).val + 65536 * (0 : Byte).val ∧
    [76].length + 4 + (serialise [.lit 65, .lit 66, .ref 2 5, .lit 67]).length ≤ 11 ∧
    ∃ c, decodeChunk ([76] ++ [16, 8, 0, 0] ++ serialise [.lit 65, .lit 66, .ref 2 5, .lit 67]
            ++ [0, 0, 0]) 11 [76].length 0
          = .done ((8 : Byte).val + 256 * (0 : Byte).val + 65536 * (0 : Byte).val) c ∧
         c.raw = expand [] [.lit 65, .lit 66, .ref 2 5, .lit 67] ∧ c.msgs = [] ∧
         c.pak = [76].length + 4 + (serialise [.lit 65, .lit 66, .ref 2 5, .lit 67]).length :=
  ⟨by decide, by decide, by decide,
   C1_chunk_roundtrip [.lit 65, .lit 66, .ref 2 5, .lit 67] [76] [0, 0, 0] 8 0 0 11 0
     (by decide) (by decide) (by decide)⟩

/-- Claim C7 fails for N = 0: with declared length 0 the token loop is not
entered, the flag byte 0x00 is not read, and the cursor ends 4 bytes (not
4 + 1 + 0) after the chunk start. -/
theorem C7_counterexample :
    decodeChunk (chunkHeader 0 ++ [0] ++ [] ++ [0, 0, 0]) 5 0 0
        = .done 0 { pak := 4, raw := [], flags := 0, mask := 0, msgs := [],
                    reads := headerReads 0 } ∧
      4 ≠ 0 + (4 + 1 + 0) :=
  ⟨by decide, by decide⟩

/-- Claim C7, amended: for every sequence of N ≤ 8 bytes, the chunk with declared
length N whose payload is the flag byte 0x00 followed by those bytes decodes
to exactly those bytes without warning; the cursor ends 4 + 1 + N bytes after
the chunk start when N ≥ 1, and 4 bytes after it when N = 0. -/
theorem C7_all_literal_chunk (bs pre post : List Byte) (pak_len flags : Nat)
    (hN : bs.length ≤ 8) (hend : pre.length + 4 + 1 + bs.length ≤ pak_len) :
    ∃ c, decodeChunk (pre ++ chunkHeader bs.length ++ [0] ++ bs ++ post) pak_len
            pre.length flags = .done bs.length c ∧
         c.raw = bs ∧ c.msgs = [] ∧
         c.pak = pre.length + 4 + (if bs.length = 0 then 0 else 1) + bs.length := by
  rw [chunkHeader_small bs.length (by omega)]
  cases bs with
  | nil =>
    obtain ⟨c, h1, h2, h3, h4⟩ :=
      decodeChunk_serialised [] pre ([0] ++ post) 16 ⟨0, by decide⟩ 0 0 pak_len flags
        (by simp [validTokens]) (by simp [expand]) (by simp [serialise, serialiseFrom]; omega)
    refine ⟨c, ?_, by simpa [expand] using h2, h4, by simpa [serialise, serialiseFrom] using h3⟩
    simpa [serialise, serialiseFrom, expand] using h1
  | cons b bs =>
    have hs := serialise_lits b bs (by simpa using hN)
    obtain ⟨c, h1, h2, h3, h4⟩ :=
      decodeChunk_serialised ((b :: bs).map Token.lit) pre post 16
        ⟨(b :: bs).length, by simp at hN ⊢; omega⟩ 0 0 pak_len flags
        (validTokens_lits _ _) (by rw [expand_lits]; simp)
        (by rw [hs]; simp at hend ⊢; omega)
    simp only [hs, expand_lits] at h1 h2 h3
    refine ⟨c, ?_, by simpa using h2, h4, ?_⟩
    · simpa using h1
    · rw [h3]; simp; omega

/-- Claim C7 (amended) at the three literals A, B, C behind a two-byte prefix. -/
theorem C7_all_literal_chunk_witness :
    [65, 66, 67].length ≤ 8 ∧ [76, 1].length + 4 + 1 + [65, 66, 67].length ≤ 10 ∧
    ∃ c, decodeChunk ([76, 1] ++ chunkHeader [65, 66, 67].length ++ [0] ++ [65, 66, 67]
            ++ [0, 0, 0]) 10 [76, 1].length 0 = .done [65, 66, 67].length c ∧
         c.raw = [65, 66, 67] ∧ c.msgs = [] ∧
         c.pak = [76, 1].length + 4 + (if [65, 66, 67].length = 0 then 0 else 1)
                  + [65, 66, 67].length :=
  ⟨by decide, by decide, C7_all_literal_chunk [65, 66, 67] [76, 1] [0, 0, 0] 10 0
    (by decide) (by decide)⟩

/-! ### Back-references -/

theorem copyLoop_some (pos : Nat) (hpos : 1 ≤ pos) (len : Nat) (raw : List Byte)
    (h : pos ≤ raw.length) : ∃ raw1, copyLoop pos len raw = some raw1 :=
  ⟨_, copyLoop_eq_copyBack pos hpos len raw h⟩

theorem copyLoop_bytes (pos : Nat) (hpos : 1 ≤ pos) : ∀ (len : Nat) (raw raw1 : List Byte),
    copyLoop pos len raw = some raw1 →
      ∀ i, i < len → raw1[raw.length + i]? = raw1[raw.length + i - pos]? := by
  intro len
  induction len with
  | zero => intro raw raw1 _ i hi; omega
  | succ n ih =>
    intro raw raw1 h i hi
    rw [copyLoop] at h
    split at h
    · rename_i hle
      split at h
      · rename_i b hb
        obtain ⟨tl, htl⟩ := copyLoop_extends _ _ _ _ h
        rcases Nat.eq_zero_or_pos i with hi0 | hi0
        · subst hi0
          have hlt : raw.length - pos < raw.length := by omega
          rw [htl]
          simp only [Nat.add_zero, List.append_assoc]
          rw [List.getElem?_append_right (Nat.le_refl _),
            List.getElem?_append_left hlt, hb]
          simp
        · have := ih _ _ h (i - 1) (by omega)
          simp only [List.length_append, List.length_singleton] at this
          have e1 : raw.length + 1 + (i - 1) = raw.length + i := by omega
          rw [e1] at this
          exact this
      · simp at h
    · simp at h

theorem copyBack_run (a : Byte) : ∀ (n : Nat) (out : List Byte),
    copyBack 1 n (out ++ [a]) = out ++ [a] ++ List.replicate n a := by
  intro n
  induction n with
  | zero => intro out; simp [copyBack]
  | succ n ih =>
    intro out
    rw [copyBack]
    have e : (out ++ [a]).getD ((out ++ [a]).length - 1) 0 = a := by
      simp [List.getD]
    rw [e, ih (out ++ [a])]
    simp [List.replicate_succ]

theorem refLength_pos (pos : Nat) : 3 ≤ refLength pos := by
  simp [refLength, LZS_THRESHOLD]

theorem refOffset_pos (pos : Nat) : 1 ≤ refOffset pos := by
  simp [refOffset]

/-- Claim C8: a back-reference (the flag bit is set, its two bytes `b0 b1` lie
before `pak_end`) whose offset does not exceed the bytes written and whose
length fits the remaining capacity appends exactly `length` bytes, keeps what
was written, and makes the byte at position p + i equal to the byte at
position p + i - offset for every i < length, also when offset < length; with
offset 1 after a last byte `a` it appends `length` copies of `a`. -/
theorem C8_backref_copy (mem : List Byte) (pak_len raw_len : Nat) (c : Cursor) (b0 b1 : Byte)
    (hflag : c.flags &&& c.mask ≠ 0) (hpak : c.pak + 1 < pak_len)
    (h0 : mem[c.pak]? = some b0) (h1 : mem[c.pak + 1]? = some b1)
    (hoff : refOffset (refValue b0 b1) ≤ c.raw.length)
    (hcap : c.raw.length + refLength (refValue b0 b1) ≤ raw_len) :
    ∃ c1, tokenBody mem pak_len raw_len c = .next c1 ∧
      c1.raw.length = c.raw.length + refLength (refValue b0 b1) ∧
      c1.raw.take c.raw.length = c.raw ∧
      (∀ i, i < refLength (refValue b0 b1) →
        c1.raw[c.raw.length + i]? = c1.raw[c.raw.length + i - refOffset (refValue b0 b1)]?) ∧
      (∀ a, refOffset (refValue b0 b1) = 1 → c.raw.getLast? = some a →
        c1.raw = c.raw ++ List.replicate (refLength (refValue b0 b1)) a) ∧
      c1.pak = c.pak + 2 ∧ c1.msgs = c.msgs := by
  have hcopy := copyLoop_eq_copyBack _ (refOffset_pos (refValue b0 b1))
    (refLength (refValue b0 b1)) c.raw hoff
  have hne : ¬ (c.pak + 1 ≥ pak_len) := by omega
  have hno : ¬ (c.raw.length + refLength (refValue b0 b1) > raw_len) := by omega
  refine ⟨{ c with pak := c.pak + 2,
                   raw := copyBack (refOffset (refValue b0 b1)) (refLength (refValue b0 b1)) c.raw,
                   reads := c.reads ++ [(.backref, c.pak), (.backref, c.pak + 1)] },
    ?_, ?_, ?_, ?_, ?_, rfl, rfl⟩
  · unfold tokenBody
    rw [if_neg hflag, if_neg hne]
    simp only [h0, h1, hno, decide_False, Bool.false_eq_true, if_false, hcopy]
  · simp [copyBack_length]
  · obtain ⟨tl, htl⟩ := copyLoop_extends _ _ _ _ hcopy
    simp only [htl]
    simp
  · intro i hi
    exact copyLoop_bytes _ (refOffset_pos _) _ _ _ hcopy i hi
  · intro a ha hlast
    simp only [ha]
    obtain ⟨out, hout⟩ : ∃ out, c.raw = out ++ [a] := by
      rcases List.eq_nil_or_concat c.raw with hnil | ⟨out, x, hx⟩
      · rw [hnil] at hlast; simp at hlast
      · rw [hx] at hlast
        simp at hlast
        exact ⟨out, by rw [hx, hlast]; simp⟩
    rw [hout, copyBack_run]

/-- Claim C8 at the bytes 0x60 0x00 (offset 1, length 9) after the output B, A:
nine further A are appended. -/
theorem C8_backref_copy_witness :
    (0x80 : Nat) &&& 0x80 ≠ 0 ∧ 1 + 1 < 3 ∧
    ([0, 0x60, 0x00] : List Byte)[1]? = some 0x60 ∧
    ([0, 0x60, 0x00] : List Byte)[1 + 1]? = some 0x00 ∧
    refOffset (refValue 0x60 0x00) ≤ [(66 : Byte), 65].length ∧
    [(66 : Byte), 65].length + refLength (refValue 0x60 0x00) ≤ 11 ∧
    ∃ c1, tokenBody [0, 0x60, 0x00] 3 11
        { pak := 1, raw := [66, 65], flags := 0x80, mask := 0x80, msgs := [], reads := [] }
          = .next c1 ∧
      c1.raw.length = [(66 : Byte), 65].length + refLength (refValue 0x60 0x00) ∧
      c1.raw.take [(66 : Byte), 65].length = [66, 65] ∧
      (∀ i, i < refLength (refValue 0x60 0x00) →
        c1.raw[[(66 : Byte), 65].length + i]?
          = c1.raw[[(66 : Byte), 65].length + i - refOffset (refValue 0x60 0x00)]?) ∧
      (∀ a, refOffset (refValue 0x60 0x00) = 1 → [(66 : Byte), 65].getLast? = some a →
        c1.raw = [66, 65] ++ List.replicate (refLength (refValue 0x60 0x00)) a) ∧
      c1.pak = 1 + 2 ∧ c1.msgs = [] :=
  ⟨by decide, by decide, by decide, by decide, by decide, by decide,
   C8_backref_copy [0, 0x60, 0x00] 3 11
     { pak := 1, raw := [66, 65], flags := 0x80, mask := 0x80, msgs := [], reads := [] }
     0x60 0x00 (by decide) (by decide) (by decide) (by decide) (by decide) (by decide)⟩

/-- A back-reference executed while the buffer is not full, whose computed
length exceeds the remaining capacity and whose offset does not exceed the
bytes written (so that the copy reads inside the buffer), appends exactly the
remaining capacity, each appended byte being the byte `offset` positions
before it, reports `wrong decoded length`, reads only its own two bytes, and
leaves the buffer exactly full: the token loop then ends at once, with the
same cursor, whatever fuel is left. -/
theorem clamped_backref_in_buffer (mem : List Byte) (pak_len raw_len : Nat) (c : Cursor)
    (b0 b1 : Byte)
    (hflag : c.flags &&& c.mask ≠ 0) (hpak : c.pak + 1 < pak_len)
    (h0 : mem[c.pak]? = some b0) (h1 : mem[c.pak + 1]? = some b1)
    (hlt : c.raw.length < raw_len)
    (hover : c.raw.length + refLength (refValue b0 b1) > raw_len)
    (hoff : refOffset (refValue b0 b1) ≤ c.raw.length) :
    ∃ c1, tokenBody mem pak_len raw_len c = .next c1 ∧
      c1.raw = copyBack (refOffset (refValue b0 b1)) (raw_len - c.raw.length) c.raw ∧
      (∃ tl, c1.raw = c.raw ++ tl ∧ tl.length = raw_len - c.raw.length) ∧
      (∀ i, i < raw_len - c.raw.length →
        c1.raw[c.raw.length + i]? = c1.raw[c.raw.length + i - refOffset (refValue b0 b1)]?) ∧
      c1.raw.length = raw_len ∧
      c1.msgs = c.msgs ++ [.wrongDecodedLength] ∧
      c1.pak = c.pak + 2 ∧
      c1.reads = c.reads ++ [(.backref, c.pak), (.backref, c.pak + 1)] ∧
      ∀ fuel, tokenLoop mem pak_len raw_len fuel c1 = .finished c1 := by
  have hcopy := copyLoop_eq_copyBack _ (refOffset_pos (refValue b0 b1))
    (raw_len - c.raw.length) c.raw hoff
  have hne : ¬ (c.pak + 1 ≥ pak_len) := by omega
  have hlen : (copyBack (refOffset (refValue b0 b1)) (raw_len - c.raw.length) c.raw).length
      = raw_len := by
    rw [copyBack_length]; omega
  refine ⟨{ c with pak := c.pak + 2,
                   raw := copyBack (refOffset (refValue b0 b1)) (raw_len - c.raw.length) c.raw,
                   msgs := c.msgs ++ [.wrongDecodedLength],
                   reads := c.reads ++ [(.backref, c.pak), (.backref, c.pak + 1)] },
    ?_, rfl, ?_, ?_, hlen, rfl, rfl, rfl, ?_⟩
  · unfold tokenBody
    rw [if_neg hflag, if_neg hne]
    simp only [h0, h1, hover, decide_True, if_true, hcopy]
  · obtain ⟨tl, htl⟩ := copyLoop_extends _ _ _ _ hcopy
    refine ⟨tl, htl, ?_⟩
    have := congrArg List.length htl
    rw [hlen] at this
    simp at this
    omega
  · intro i hi
    exact copyLoop_bytes _ (refOffset_pos _) _ _ _ hcopy i hi
  · intro fuel
    exact tokenLoop_full _ _ _ _ _ (by simp only [hlen]; exact Nat.le_refl _)

/-- The clamped copy at the bytes 0x60 0x00 (length 9, offset 1) after the
output B, A, with 3 bytes of capacity left: three further A are appended. -/
theorem clamped_backref_in_buffer_example :
    tokenBody [0, 0x60, 0x00] 3 5
        { pak := 1, raw := [66, 65], flags := 0x80, mask := 0x80, msgs := [], reads := [] }
      = .next { pak := 3, raw := [66, 65, 65, 65, 65], flags := 0x80, mask := 0x80,
                msgs := [.wrongDecodedLength],
                reads := [(.backref, 1), (.backref, 2)] } := by
  decide

/-! ### `Load` and the paths of `LZS_Decode` -/

theorem Load_some {file mem : List Byte} {pak_len : Nat}
    (h : Load file LZS_MINIM LZS_MAXIM = some (mem, pak_len)) :
    mem = file ++ List.replicate 3 0 ∧ pak_len = file.length ∧ 4 ≤ file.length ∧
      file.length ≤ LZS_MAXIM := by
  unfold Load at h
  simp only at h
  split at h
  · simp at h
  · rename_i hn
    simp only [Option.some.injEq, Prod.mk.injEq] at h
    have hn1 : ¬ (file.length < 4 ∨ file.length > LZS_MAXIM) := hn
    exact ⟨h.1.symm, h.2.symm, by omega, by omega⟩

theorem padded_getElem? (file : List Byte) (i : Nat) :
    (file ++ List.replicate 3 0)[i]? = some 16 ↔ file[i]? = some 16 := by
  by_cases h : i < file.length
  · rw [List.getElem?_append_left h]
  · rw [List.getElem?_append_right (by omega), List.getElem?_eq_none (l := file) (by omega),
      List.getElem?_replicate]
    split <;> simp

theorem LZS_Decode_notWildWorld {file mem : List Byte} {pak_len : Nat}
    (hload : Load file LZS_MINIM LZS_MAXIM = some (mem, pak_len))
    (h0 : mem[0]? ≠ some 76) :
    LZS_Decode file
      = { status := .exited, run := { Run.start file with msgs := [.notWildWorld] } } := by
  obtain ⟨hm, _, h4, _⟩ := Load_some hload
  have hlt : 0 < mem.length := by rw [hm]; simp
  unfold LZS_Decode
  rw [hload]
  simp only [List.getElem?_eq_getElem hlt]
  rw [if_pos]
  intro hv
  apply h0
  rw [List.getElem?_eq_getElem hlt]
  congr 1
  apply Fin.ext
  simpa [CMD_CODE_4C] using hv

theorem LZS_Decode_scan {file mem : List Byte} {pak_len : Nat}
    (hload : Load file LZS_MINIM LZS_MAXIM = some (mem, pak_len))
    (h0 : mem[0]? = some 76) :
    LZS_Decode file =
      match scan mem with
      | .fault => { status := .undefined, run := Run.start file }
      | .outOfFuel => { status := .outOfFuel, run := Run.start file }
      | .notFound => { status := .exited, run := { Run.start file with msgs := [.notLZSS] } }
      | .found begin_buffer =>
        chunkLoop mem pak_len mem.length
          { Run.start file with pak := begin_buffer, dest := [], emptied := true } := by
  unfold LZS_Decode
  rw [hload]
  simp only [h0]
  rw [if_neg (by decide)]

theorem LZS_Decode_sizeError {file : List Byte}
    (hload : Load file LZS_MINIM LZS_MAXIM = none) :
    LZS_Decode file
      = { status := .exited, run := { Run.start file with msgs := [.fileSizeError] } } := by
  unfold LZS_Decode
  rw [hload]

theorem scan_found_lt {mem : List Byte} {x : Nat} (h : scan mem = .found x) :
    x < mem.length := by
  obtain ⟨j, _, _, hj, _⟩ := (scan_char mem).1 x h
  rcases List.getElem?_eq_some.1 hj with ⟨hlt, _⟩
  exact hlt

/-! ### The flag register at the start of a chunk -/

theorem tokenStep_flags (mem : List Byte) (pak_len raw_len : Nat) (c : Cursor) (f : Nat)
    (hm : c.mask >>> LZS_SHIFT = 0) (hp : c.pak ≠ pak_len) (b : Byte)
    (hb : mem[c.pak]? = some b) :
    tokenStep mem pak_len raw_len { c with flags := f } = tokenStep mem pak_len raw_len c := by
  unfold tokenStep
  simp only [hm, if_true, if_neg hp, hb]

theorem tokenStep_flag_fault (mem : List Byte) (pak_len raw_len : Nat) (c : Cursor)
    (hm : c.mask >>> LZS_SHIFT = 0) (hp : c.pak ≠ pak_len) (hb : mem[c.pak]? = none) :
    ∃ c1, tokenStep mem pak_len raw_len c = .fault c1 := by
  unfold tokenStep
  simp only [hm, if_true, if_neg hp, hb]
  exact ⟨_, rfl⟩

theorem tokenLoop_flags (mem : List Byte) (pak_len raw_len : Nat) (c : Cursor) (f : Nat)
    (hm : c.mask >>> LZS_SHIFT = 0) (fuel : Nat) (c1 : Cursor)
    (h : tokenLoop mem pak_len raw_len fuel c = .finished c1) :
    ∃ c2, tokenLoop mem pak_len raw_len fuel { c with flags := f } = .finished c2 ∧
      c2.pak = c1.pak ∧ c2.raw = c1.raw ∧ c2.msgs = c1.msgs ∧ c2.reads = c1.reads := by
  cases fuel with
  | zero =>
    rw [tokenLoop] at h ⊢
    by_cases hlt : c.raw.length < raw_len
    · rw [if_pos hlt] at h; simp at h
    · rw [if_neg hlt] at h
      simp only [Loop.finished.injEq] at h
      subst h
      exact ⟨{ c with flags := f }, by rw [if_neg hlt], rfl, rfl, rfl, rfl⟩
  | succ n =>
    rw [tokenLoop] at h ⊢
    by_cases hlt : c.raw.length < raw_len
    · rw [if_pos hlt] at h
      simp only
      rw [if_pos hlt]
      by_cases hp : c.pak = pak_len
      · have e1 : tokenStep mem pak_len raw_len c
            = .stop { c with mask := c.mask >>> LZS_SHIFT } := by
          unfold tokenStep
          simp only [hm, if_true, if_pos hp]
        have e2 : tokenStep mem pak_len raw_len { c with flags := f }
            = .stop { c with flags := f, mask := c.mask >>> LZS_SHIFT } := by
          unfold tokenStep
          simp only [hm, if_true, if_pos hp]
        rw [e1] at h
        simp only [Loop.finished.injEq] at h
        subst h
        rw [e2]
        exact ⟨_, rfl, rfl, rfl, rfl, rfl⟩
      · cases hb : mem[c.pak]? with
        | none =>
          obtain ⟨c3, h3⟩ := tokenStep_flag_fault mem pak_len raw_len c hm hp hb
          rw [h3] at h
          simp at h
        | some b =>
          rw [tokenStep_flags mem pak_len raw_len c f hm hp b hb]
          exact ⟨c1, h, rfl, rfl, rfl, rfl⟩
    · rw [if_neg hlt] at h
      simp only [Loop.finished.injEq] at h
      subst h
      exact ⟨{ c with flags := f }, by simp only; rw [if_neg hlt], rfl, rfl, rfl, rfl⟩

theorem decodeChunk_flags (mem : List Byte) (pak_len pak f1 f2 raw_len : Nat) (c1 : Cursor)
    (h : decodeChunk mem pak_len pak f1 = .done raw_len c1) :
    ∃ c2, decodeChunk mem pak_len pak f2 = .done raw_len c2 ∧
      c2.pak = c1.pak ∧ c2.raw = c1.raw ∧ c2.msgs = c1.msgs ∧ c2.reads = c1.reads := by
  unfold decodeChunk at h ⊢
  split at h
  · simp at h
  · rename_i rl hrl
    split at h
    · rename_i c hloop
      simp only [ChunkResult.done.injEq] at h
      obtain ⟨e1, e2⟩ := h
      subst e1
      obtain ⟨c2, g1, g2, g3, g4, g5⟩ := tokenLoop_flags mem pak_len rl
        { pak := pak + 4, raw := [], flags := f1, mask := 0, msgs := [],
          reads := headerReads pak } f2 (by simp) rl c hloop
      simp only at g1
      rw [g1]
      simp only
      subst e2
      by_cases hc : c.raw.length = rl
      · have hc2 : c2.raw.length = rl := by rw [g3]; exact hc
        simp only [hc, hc2, ne_eq, not_true_eq_false, if_false]
        exact ⟨c2, rfl, g2, g3, g4, g5⟩
      · have hc2 : ¬ c2.raw.length = rl := by rw [g3]; exact hc
        simp only [hc, hc2, ne_eq, not_false_eq_true, if_true]
        exact ⟨_, rfl, g2, g3, by simp [g4], g5⟩
    · simp at h
    · simp at h

/-- On the buffer `Load` builds from a file, the scan succeeds iff some k ≤ 20
has the chunk magic at offset 10 + 2k of the file, and then yields 10 + 2k for
the least such k; a magic at offset 50 is accepted; when the magic occurs only
at offset 52 or at odd offsets the scan does not succeed: it ends with
`not LZSS encoded` when the file has at least 50 bytes (always so for a magic
at offset 52), and runs off the buffer when the file is shorter. -/
theorem scan_found_iff (file : List Byte) :
    ((∃ x, scan (file ++ List.replicate 3 0) = .found x) ↔
      ∃ k, k ≤ 20 ∧ file[10 + 2 * k]? = some 16) ∧
    (∀ x, scan (file ++ List.replicate 3 0) = .found x →
      ∃ k, k ≤ 20 ∧ x = 10 + 2 * k ∧ file[10 + 2 * k]? = some 16 ∧
        ∀ j, j < k → file[10 + 2 * j]? ≠ some 16) ∧
    (file[50]? = some 16 → ∃ x, scan (file ++ List.replicate 3 0) = .found x) ∧
    ((∀ i : Nat, file[i]? = some (16 : Byte) → i = 52 ∨ i % 2 = 1) →
      (50 ≤ file.length → scan (file ++ List.replicate 3 0) = .notFound) ∧
      (file.length < 50 → scan (file ++ List.replicate 3 0) = .fault)) := by
  obtain ⟨s1, s2, s3, s4⟩ := scan_char (file ++ List.replicate 3 0)
  have hfound : ∀ x, scan (file ++ List.replicate 3 0) = .found x →
      ∃ k, k ≤ 20 ∧ x = 10 + 2 * k ∧ file[10 + 2 * k]? = some 16 ∧
        ∀ j, j < k → file[10 + 2 * j]? ≠ some 16 := by
    intro x hx
    obtain ⟨j, hj1, hj2, hj3, hj4⟩ := s1 x hx
    refine ⟨j, hj1, hj2, ?_, ?_⟩
    · rw [← hj2]; exact (padded_getElem? file x).1 hj3
    · intro i hi h
      exact hj4 i hi ((padded_getElem? file _).2 h)
  have hnone : (∀ k, k ≤ 20 → file[10 + 2 * k]? ≠ some 16) →
      (50 ≤ file.length → scan (file ++ List.replicate 3 0) = .notFound) ∧
      (file.length < 50 → scan (file ++ List.replicate 3 0) = .fault) := by
    intro hall
    have hlen : (file ++ List.replicate 3 (0 : Byte)).length = file.length + 3 := by simp
    cases hs : scan (file ++ List.replicate 3 0) with
    | found x =>
      obtain ⟨k, hk1, _, hk3, _⟩ := hfound x hs
      exact absurd hk3 (hall k hk1)
    | notFound =>
      have := (s2 hs).2
      exact ⟨fun _ => rfl, fun h => by omega⟩
    | fault =>
      have := (s3 hs).2
      exact ⟨fun h => by omega, fun _ => rfl⟩
    | outOfFuel => exact absurd hs s4
  have hex : (∃ k, k ≤ 20 ∧ file[10 + 2 * k]? = some 16) →
      ∃ x, scan (file ++ List.replicate 3 0) = .found x := by
    intro ⟨k, hk1, hk2⟩
    have hk3 := (padded_getElem? file (10 + 2 * k)).2 hk2
    cases hs : scan (file ++ List.replicate 3 0) with
    | found x => exact ⟨x, rfl⟩
    | notFound => exact absurd hk3 ((s2 hs).1 k hk1)
    | fault => exact absurd hk3 ((s3 hs).1 k hk1)
    | outOfFuel => exact absurd hs s4
  refine ⟨⟨?_, hex⟩, hfound, ?_, ?_⟩
  · intro ⟨x, hx⟩
    obtain ⟨k, hk1, _, hk3, _⟩ := hfound x hx
    exact ⟨k, hk1, hk3⟩
  · intro h50
    exact hex ⟨20, by omega, h50⟩
  · intro honly
    apply hnone
    intro k hk h
    rcases honly _ h with h1 | h1 <;> omega

/-- The scan on three files of more than 50 bytes: a magic at offset 50 (20
strides) is found, at offset 50; a magic at offset 52 only, or at offset 11
only, is not. -/
theorem scan_found_iff_examples :
    (∃ x, scan ([76] ++ List.replicate 49 0 ++ [16] ++ List.replicate 3 0) = .found x) ∧
    scan ([76] ++ List.replicate 49 0 ++ [16] ++ List.replicate 3 0) = .found 50 ∧
    scan ([76] ++ List.replicate 51 0 ++ [16] ++ List.replicate 3 0) = .notFound ∧
    scan ([76] ++ List.replicate 10 0 ++ [16] ++ List.replicate 45 0 ++ List.replicate 3 0)
      = .notFound :=
  ⟨(scan_found_iff ([76] ++ List.replicate 49 0 ++ [16])).2.2.1 (by decide),
   by decide, by decide, by decide⟩

/-- For every buffer `Load` returns, `LZS_Decode` ends with `exit` iff byte 0
is not 0x4C or the scan ends, inside the buffer, without a chunk magic; it
never runs out of fuel; a run that reported `unexpected end` or
`wrong decoded length` did not exit and has reset its output; once the scan
has found a chunk the call returns, unless it makes an access outside a
buffer. -/
theorem LZS_Decode_exited_iff (file mem : List Byte) (pak_len : Nat)
    (hload : Load file LZS_MINIM LZS_MAXIM = some (mem, pak_len)) :
    ((LZS_Decode file).status = .exited ↔ (mem[0]? ≠ some 76 ∨ scan mem = .notFound)) ∧
    (LZS_Decode file).status ≠ .outOfFuel ∧
    ((Msg.unexpectedEnd ∈ (LZS_Decode file).run.msgs ∨
        Msg.wrongDecodedLength ∈ (LZS_Decode file).run.msgs) →
      (LZS_Decode file).status ≠ .exited ∧ (LZS_Decode file).run.emptied = true) ∧
    (mem[0]? = some 76 → (∃ x, scan mem = .found x) →
      ((LZS_Decode file).status = .returned ∨ (LZS_Decode file).status = .undefined) ∧
      (LZS_Decode file).run.emptied = true) := by
  by_cases h0 : mem[0]? = some 76
  · have hd := LZS_Decode_scan hload h0
    cases hs : scan mem with
    | found x =>
      rw [hs] at hd
      simp only at hd
      obtain ⟨cs, tl, i1, i2, i3, i4, i5, i6⟩ := chunkLoop_inv mem pak_len mem.length
        { Run.start file with pak := x, dest := [], emptied := true }
      have hf := chunkLoop_fuel mem pak_len mem.length
        { Run.start file with pak := x, dest := [], emptied := true }
        (scan_found_lt hs) (by simp)
      rw [← hd] at i4 i5 hf
      simp only at i4
      refine ⟨⟨fun h => absurd h i5, fun h => ?_⟩, ?_, fun _ => ⟨i5, i4⟩, fun _ _ => ⟨hf, i4⟩⟩
      · rcases h with h | h
        · exact absurd h0 h
        · simp at h
      · rcases hf with h | h <;> rw [h] <;> simp
    | notFound =>
      rw [hs] at hd
      simp only at hd
      rw [hd]
      refine ⟨⟨fun _ => Or.inr rfl, fun _ => rfl⟩, by simp, ?_, ?_⟩
      · simp [Run.start]
      · intro _ ⟨x, hx⟩; simp at hx
    | fault =>
      rw [hs] at hd
      simp only at hd
      rw [hd]
      refine ⟨⟨fun h => by simp at h, fun h => ?_⟩, by simp, ?_, ?_⟩
      · rcases h with h | h
        · exact absurd h0 h
        · simp at h
      · simp [Run.start]
      · intro _ ⟨x, hx⟩; simp at hx
    | outOfFuel => exact absurd hs (scan_char mem).2.2.2
  · rw [LZS_Decode_notWildWorld hload h0]
    refine ⟨⟨fun _ => Or.inl h0, fun _ => rfl⟩, by simp, ?_, fun h => absurd h h0⟩
    simp [Run.start]

/-- A file with a clamped back-reference in its first chunk and a truncated
second chunk: both warnings, and the call returns with its output. -/
theorem LZS_Decode_exited_iff_example :
    Load ([76, 0, 0, 0, 0, 0, 0, 0, 0, 0] ++ [16, 5, 0, 0, 0x40, 65, 0x30, 0x00]
            ++ [16, 3, 0, 0, 0x00, 66]) LZS_MINIM LZS_MAXIM
      = some ([76, 0, 0, 0, 0, 0, 0, 0, 0, 0] ++ [16, 5, 0, 0, 0x40, 65, 0x30, 0x00]
              ++ [16, 3, 0, 0, 0x00, 66] ++ [0, 0, 0], 24) ∧
    (LZS_Decode ([76, 0, 0, 0, 0, 0, 0, 0, 0, 0] ++ [16, 5, 0, 0, 0x40, 65, 0x30, 0x00]
            ++ [16, 3, 0, 0, 0x00, 66])).run.msgs = [.wrongDecodedLength, .unexpectedEnd] ∧
    (LZS_Decode ([76, 0, 0, 0, 0, 0, 0, 0, 0, 0] ++ [16, 5, 0, 0, 0x40, 65, 0x30, 0x00]
            ++ [16, 3, 0, 0, 0x00, 66])).run.dest = [65, 65, 65, 65, 65, 66] ∧
    (LZS_Decode ([76, 0, 0, 0, 0, 0, 0, 0, 0, 0] ++ [16, 5, 0, 0, 0x40, 65, 0x30, 0x00]
            ++ [16, 3, 0, 0, 0x00, 66])).status = .returned ∧
    ((LZS_Decode ([76, 0, 0, 0, 0, 0, 0, 0, 0, 0] ++ [16, 5, 0, 0, 0x40, 65, 0x30, 0x00]
            ++ [16, 3, 0, 0, 0x00, 66])).status ≠ .exited ∧
      (LZS_Decode ([76, 0, 0, 0, 0, 0, 0, 0, 0, 0] ++ [16, 5, 0, 0, 0x40, 65, 0x30, 0x00]
            ++ [16, 3, 0, 0, 0x00, 66])).run.emptied = true) :=
  ⟨by decide, by decide, by decide, by decide,
   (LZS_Decode_exited_iff
     ([76, 0, 0, 0, 0, 0, 0, 0, 0, 0] ++ [16, 5, 0, 0, 0x40, 65, 0x30, 0x00]
       ++ [16, 3, 0, 0, 0x00, 66])
     ([76, 0, 0, 0, 0, 0, 0, 0, 0, 0] ++ [16, 5, 0, 0, 0x40, 65, 0x30, 0x00]
       ++ [16, 3, 0, 0, 0x00, 66] ++ [0, 0, 0]) 24 (by decide)).2.2.1 (Or.inl (by decide))⟩

theorem length_flatten_saved : ∀ (cs : List ChunkRec),
    (∀ ch, ch ∈ cs → ch.saved.length = ch.declared) →
    ((cs.map ChunkRec.saved).flatten).length = (cs.map ChunkRec.declared).sum := by
  intro cs
  induction cs with
  | nil => intro _; simp
  | cons ch cs ih =>
    intro h
    simp only [List.map_cons, List.flatten_cons, List.length_append, List.sum_cons]
    rw [ih (fun x hx => h x (List.mem_cons_of_mem _ hx)), h ch (List.mem_cons_self _ _)]

/-- Claim C2: for every container whose byte 0 is 0x4C, whose first chunk magic is
found by the scan and whose run reports no `unexpected end` (no chunk ended
before its declared length was filled), the number of bytes in the output
equals the sum of the declared lengths of the chunks decoded, and the output
is the concatenation of the chunks' bytes. -/
theorem C2_total_length (file mem : List Byte) (pak_len x : Nat)
    (hload : Load file LZS_MINIM LZS_MAXIM = some (mem, pak_len))
    (h0 : mem[0]? = some 76) (hscan : scan mem = .found x)
    (hwf : Msg.unexpectedEnd ∉ (LZS_Decode file).run.msgs) :
    (LZS_Decode file).run.dest.length
        = ((LZS_Decode file).run.chunks.map ChunkRec.declared).sum ∧
      (LZS_Decode file).run.dest
        = ((LZS_Decode file).run.chunks.map ChunkRec.saved).flatten := by
  have hd := LZS_Decode_scan hload h0
  rw [hscan] at hd
  simp only at hd
  obtain ⟨cs, tl, i1, i2, i3, i4, i5, i6⟩ := chunkLoop_inv mem pak_len mem.length
    { Run.start file with pak := x, dest := [], emptied := true }
  rw [← hd] at i1 i2 i3
  simp only [Run.start, List.nil_append] at i1 i2 i3
  rw [i3] at hwf
  rw [i1, i2]
  exact ⟨length_flatten_saved cs (fun ch hch => by
    by_contra hne
    exact hwf ((i6 ch hch).2.1 hne)), rfl⟩

/-- Claim C2 on a file of two full chunks declaring 5 and 2 bytes. -/
theorem C2_total_length_witness :
    Load ([76, 0, 0, 0, 0, 0, 0, 0, 0, 0, 0, 0] ++ [16, 5, 0, 0, 0x40, 65, 0x30, 0x00]
            ++ [16, 2, 0, 0, 0x00, 66, 67]) LZS_MINIM LZS_MAXIM
      = some ([76, 0, 0, 0, 0, 0, 0, 0, 0, 0, 0, 0] ++ [16, 5, 0, 0, 0x40, 65, 0x30, 0x00]
              ++ [16, 2, 0, 0, 0x00, 66, 67] ++ [0, 0, 0], 27) ∧
    ([76, 0, 0, 0, 0, 0, 0, 0, 0, 0, 0, 0] ++ [16, 5, 0, 0, 0x40, 65, 0x30, 0x00]
        ++ [16, 2, 0, 0, 0x00, 66, 67] ++ [0, 0, 0] : List Byte)[0]? = some 76 ∧
    scan ([76, 0, 0, 0, 0, 0, 0, 0, 0, 0, 0, 0] ++ [16, 5, 0, 0, 0x40, 65, 0x30, 0x00]
        ++ [16, 2, 0, 0, 0x00, 66, 67] ++ [0, 0, 0]) = .found 12 ∧
    (LZS_Decode ([76, 0, 0, 0, 0, 0, 0, 0, 0, 0, 0, 0] ++ [16, 5, 0, 0, 0x40, 65, 0x30, 0x00]
        ++ [16, 2, 0, 0, 0x00, 66, 67])).run.chunks
      = [{ start := 12, declared := 5, saved := [65, 65, 65, 65, 65] },
         { start := 20, declared := 2, saved := [66, 67] }] ∧
    ((LZS_Decode ([76, 0, 0, 0, 0, 0, 0, 0, 0, 0, 0, 0] ++ [16, 5, 0, 0, 0x40, 65, 0x30, 0x00]
        ++ [16, 2, 0, 0, 0x00, 66, 67])).run.dest.length
        = ((LZS_Decode ([76, 0, 0, 0, 0, 0, 0, 0, 0, 0, 0, 0]
              ++ [16, 5, 0, 0, 0x40, 65, 0x30, 0x00]
              ++ [16, 2, 0, 0, 0x00, 66, 67])).run.chunks.map ChunkRec.declared).sum ∧
      (LZS_Decode ([76, 0, 0, 0, 0, 0, 0, 0, 0, 0, 0, 0] ++ [16, 5, 0, 0, 0x40, 65, 0x30, 0x00]
        ++ [16, 2, 0, 0, 0x00, 66, 67])).run.dest
        = ((LZS_Decode ([76, 0, 0, 0, 0, 0, 0, 0, 0, 0, 0, 0]
              ++ [16, 5, 0, 0, 0x40, 65, 0x30, 0x00]
              ++ [16, 2, 0, 0, 0x00, 66, 67])).run.chunks.map ChunkRec.saved).flatten) :=
  ⟨by decide, by decide, by decide, by decide,
   C2_total_length
     ([76, 0, 0, 0, 0, 0, 0, 0, 0, 0, 0, 0] ++ [16, 5, 0, 0, 0x40, 65, 0x30, 0x00]
        ++ [16, 2, 0, 0, 0x00, 66, 67])
     ([76, 0, 0, 0, 0, 0, 0, 0, 0, 0, 0, 0] ++ [16, 5, 0, 0, 0x40, 65, 0x30, 0x00]
        ++ [16, 2, 0, 0, 0x00, 66, 67] ++ [0, 0, 0]) 27 12
     (by decide) (by decide) (by decide) (by decide)⟩

/-- Claim C5: when `LZS_Decode` ends with `exit`, the file is exactly as before
the call and has not been reset, so that decoding it again gives the same
result; and, for every file, the reset to empty happens only after `Load`, the
test of byte 0 and the scan have succeeded. -/
theorem C5_fatal_leaves_destination (file : List Byte)
    (h : (LZS_Decode file).status = .exited) :
    (LZS_Decode file).run.dest = file ∧ (LZS_Decode file).run.emptied = false ∧
      LZS_Decode (LZS_Decode file).run.dest = LZS_Decode file ∧
      (∀ f : List Byte, (LZS_Decode f).run.emptied = true →
        ∃ mem pak_len x, Load f LZS_MINIM LZS_MAXIM = some (mem, pak_len) ∧
          mem[0]? = some 76 ∧ scan mem = .found x) := by
  have key : ∀ f : List Byte,
      ((LZS_Decode f).status = .exited →
        (LZS_Decode f).run.dest = f ∧ (LZS_Decode f).run.emptied = false) ∧
      ((LZS_Decode f).run.emptied = true →
        ∃ mem pak_len x, Load f LZS_MINIM LZS_MAXIM = some (mem, pak_len) ∧
          mem[0]? = some 76 ∧ scan mem = .found x) := by
    intro f
    cases hload : Load f LZS_MINIM LZS_MAXIM with
    | none =>
      rw [LZS_Decode_sizeError hload]
      simp [Run.start]
    | some p =>
      obtain ⟨mem, pak_len⟩ := p
      by_cases h0 : mem[0]? = some 76
      · have hd := LZS_Decode_scan hload h0
        cases hs : scan mem with
        | found x =>
          rw [hs] at hd
          simp only at hd
          obtain ⟨cs, tl, i1, i2, i3, i4, i5, i6⟩ := chunkLoop_inv mem pak_len mem.length
            { Run.start f with pak := x, dest := [], emptied := true }
          rw [← hd] at i5
          exact ⟨fun hex => absurd hex i5, fun _ => ⟨mem, pak_len, x, rfl, h0, hs⟩⟩
        | notFound =>
          rw [hs] at hd
          simp only at hd
          rw [hd]
          simp [Run.start]
        | fault =>
          rw [hs] at hd
          simp only at hd
          rw [hd]
          simp [Run.start]
        | outOfFuel => exact absurd hs (scan_char mem).2.2.2
      · rw [LZS_Decode_notWildWorld hload h0]
        simp [Run.start]
  obtain ⟨h1, h2⟩ := (key file).1 h
  refine ⟨h1, h2, by rw [h1], fun f => (key f).2⟩

/-- Claim C5 on a file whose only chunk magics are at offsets 11 and 52. -/
theorem C5_fatal_leaves_destination_witness :
    (LZS_Decode [76, 1, 2, 3, 4, 5, 6, 7, 8, 9, 0, 16, 0, 0, 0, 0, 0, 0, 0, 0, 0, 0, 0, 0, 0, 0,
      0, 0, 0, 0, 0, 0, 0, 0, 0, 0, 0, 0, 0, 0, 0, 0, 0, 0, 0, 0, 0, 0, 0, 0, 0, 0, 16, 1, 0, 0,
      0, 9]).status = .exited ∧
    (LZS_Decode [76, 1, 2, 3, 4, 5, 6, 7, 8, 9, 0, 16, 0, 0, 0, 0, 0, 0, 0, 0, 0, 0, 0, 0, 0, 0,
      0, 0, 0, 0, 0, 0, 0, 0, 0, 0, 0, 0, 0, 0, 0, 0, 0, 0, 0, 0, 0, 0, 0, 0, 0, 0, 16, 1, 0, 0,
      0, 9]).run.msgs = [.notLZSS] ∧
    (LZS_Decode [76, 1, 2, 3, 4, 5, 6, 7, 8, 9, 0, 16, 0, 0, 0, 0, 0, 0, 0, 0, 0, 0, 0, 0, 0, 0,
      0, 0, 0, 0, 0, 0, 0, 0, 0, 0, 0, 0, 0, 0, 0, 0, 0, 0, 0, 0, 0, 0, 0, 0, 0, 0, 16, 1, 0, 0,
      0, 9]).run.dest
      = [76, 1, 2, 3, 4, 5, 6, 7, 8, 9, 0, 16, 0, 0, 0, 0, 0, 0, 0, 0, 0, 0, 0, 0, 0, 0,
      0, 0, 0, 0, 0, 0, 0, 0, 0, 0, 0, 0, 0, 0, 0, 0, 0, 0, 0, 0, 0, 0, 0, 0, 0, 0, 16, 1, 0, 0,
      0, 9] :=
  ⟨by decide, by decide,
   (C5_fatal_leaves_destination [76, 1, 2, 3, 4, 5, 6, 7, 8, 9, 0, 16, 0, 0, 0, 0, 0, 0, 0, 0,
      0, 0, 0, 0, 0, 0, 0, 0, 0, 0, 0, 0, 0, 0, 0, 0, 0, 0, 0, 0, 0, 0, 0, 0, 0, 0, 0, 0, 0, 0,
      0, 0, 16, 1, 0, 0, 0, 9] (by decide)).1⟩

theorem chunkLoop_continue (mem : List Byte) (pak_len fuel : Nat) (r : Run) (raw_len : Nat)
    (c : Cursor) (h : decodeChunk mem pak_len r.pak r.flags = .done raw_len c)
    (hnext : mem[c.pak]? = some 16) :
    chunkLoop mem pak_len (fuel + 1) r = chunkLoop mem pak_len fuel
      { pak := c.pak, flags := c.flags,
        final_len := (r.final_len + raw_len) % 4294967296,
        dest := r.dest ++ c.raw, emptied := r.emptied,
        msgs := r.msgs ++ c.msgs,
        reads := r.reads ++ c.reads ++ [(.next, c.pak)],
        chunks := r.chunks ++ [{ start := r.pak, declared := raw_len, saved := c.raw }] } := by
  rw [chunkLoop]
  simp only [h, hnext]
  rw [if_neg (by decide)]

theorem chunkLoop_last (mem : List Byte) (pak_len fuel : Nat) (r : Run) (raw_len : Nat)
    (c : Cursor) (b : Byte) (h : decodeChunk mem pak_len r.pak r.flags = .done raw_len c)
    (hnext : mem[c.pak]? = some b) (hb : b ≠ 16) :
    chunkLoop mem pak_len (fuel + 1) r =
      { status := .returned,
        run := { pak := c.pak, flags := c.flags,
                 final_len := (r.final_len + raw_len) % 4294967296,
                 dest := r.dest ++ c.raw, emptied := r.emptied,
                 msgs := r.msgs ++ c.msgs,
                 reads := r.reads ++ c.reads ++ [(.next, c.pak)] ++ [(.last, c.pak)],
                 chunks := r.chunks
                    ++ [{ start := r.pak, declared := raw_len, saved := c.raw }] } } := by
  have hv : b.val ≠ CMD_CODE_10 := fun hv => hb ((byte_val_eq_magic b).1 hv)
  rw [chunkLoop]
  simp only [h, hnext]
  rw [if_pos hv]
  simp only [finish, hnext, if_neg hv]

/-- Claim C6: when the scan finds a first chunk, the byte after its consumed
payload is the chunk magic of a second chunk, and the byte after the second
chunk's payload is not a chunk magic, `LZS_Decode` returns and its output is
the output of the first chunk decoded alone followed by that of the second
chunk decoded alone, whatever value the flag register has when either starts;
the warnings are those of the two chunks, in order. -/
theorem C6_two_chunks (file mem : List Byte) (pak_len start f1 f2 rl1 rl2 : Nat)
    (c1 c2 : Cursor) (b : Byte)
    (hload : Load file LZS_MINIM LZS_MAXIM = some (mem, pak_len))
    (h0 : mem[0]? = some 76) (hscan : scan mem = .found start)
    (h1 : decodeChunk mem pak_len start f1 = .done rl1 c1)
    (hnext : mem[c1.pak]? = some 16)
    (h2 : decodeChunk mem pak_len c1.pak f2 = .done rl2 c2)
    (hlast : mem[c2.pak]? = some b) (hb : b ≠ 16) :
    (LZS_Decode file).status = .returned ∧
      (LZS_Decode file).run.dest = c1.raw ++ c2.raw ∧
      (LZS_Decode file).run.chunks
        = [{ start := start, declared := rl1, saved := c1.raw },
           { start := c1.pak, declared := rl2, saved := c2.raw }] ∧
      (LZS_Decode file).run.msgs = c1.msgs ++ c2.msgs := by
  have hd := LZS_Decode_scan hload h0
  rw [hscan] at hd
  simp only at hd
  obtain ⟨hm, _, h4, _⟩ := Load_some hload
  obtain ⟨n, hn⟩ : ∃ n, mem.length = n + 1 + 1 := ⟨file.length + 1, by rw [hm]; simp⟩
  obtain ⟨d1, g1, g2, g3, g4, _⟩ := decodeChunk_flags mem pak_len start f1 0 rl1 c1 h1
  obtain ⟨d2, k1, k2, k3, k4, _⟩ := decodeChunk_flags mem pak_len c1.pak f2 d1.flags rl2 c2 h2
  rw [hn, chunkLoop_continue mem pak_len (n + 1) _ rl1 d1 g1 (by rw [g2]; exact hnext),
    chunkLoop_last mem pak_len n _ rl2 d2 b (by simp only [g2]; exact k1)
      (by rw [k2]; exact hlast) hb] at hd
  rw [hd]
  simp [Run.start, g3, g4, k3, k4, g2]

/-- Claim C6 on a file of two chunks: A, B, a back-reference (offset 2, length 3),
then the literals C, D, E. -/
theorem C6_two_chunks_witness :
    (LZS_Decode ([76, 0, 0, 0, 0, 0, 0, 0, 0, 0] ++ [16, 5, 0, 0, 0x20, 65, 66, 0x00, 0x01]
        ++ [16, 3, 0, 0, 0x00, 67, 68, 69])).status = .returned ∧
    (LZS_Decode ([76, 0, 0, 0, 0, 0, 0, 0, 0, 0] ++ [16, 5, 0, 0, 0x20, 65, 66, 0x00, 0x01]
        ++ [16, 3, 0, 0, 0x00, 67, 68, 69])).run.dest = [65, 66, 65, 66, 65] ++ [67, 68, 69] :=
  (fun h => ⟨h.1, h.2.1⟩)
   (C6_two_chunks
     ([76, 0, 0, 0, 0, 0, 0, 0, 0, 0] ++ [16, 5, 0, 0, 0x20, 65, 66, 0x00, 0x01]
        ++ [16, 3, 0, 0, 0x00, 67, 68, 69])
     ([76, 0, 0, 0, 0, 0, 0, 0, 0, 0] ++ [16, 5, 0, 0, 0x20, 65, 66, 0x00, 0x01]
        ++ [16, 3, 0, 0, 0x00, 67, 68, 69] ++ [0, 0, 0]) 27 10 0 0 5 3
     { pak := 19, raw := [65, 66, 65, 66, 65], flags := 0x20, mask := 0x20, msgs := [],
       reads := headerReads 10 ++ [(.flag, 14), (.literal, 15), (.literal, 16), (.backref, 17),
         (.backref, 18)] }
     { pak := 27, raw := [67, 68, 69], flags := 0, mask := 0x20, msgs := [],
       reads := headerReads 19 ++ [(.flag, 23), (.literal, 24), (.literal, 25),
         (.literal, 26)] }
     0 (by decide) (by decide) (by decide) (by decide) (by decide) (by decide) (by decide)
     (by decide))

/-! ### What a single iteration can change -/

theorem tokenBody_frame (mem : List Byte) (pak_len raw_len : Nat) (c : Cursor) :
    (∀ m, m ∈ (tokenBody mem pak_len raw_len c).cursor.msgs →
        m ∈ c.msgs ∨ m = Msg.wrongDecodedLength) ∧
      (∀ c1, tokenBody mem pak_len raw_len c = .fault c1 → c1.raw = c.raw) ∧
      (tokenBody mem pak_len raw_len c).cursor.mask = c.mask ∧
      (tokenBody mem pak_len raw_len c).cursor.flags = c.flags := by
  unfold tokenBody
  split
  · split
    · simp [Step.cursor]
      exact fun m hm => Or.inl hm
    · split <;> simp [Step.cursor] <;> exact fun m hm => Or.inl hm
  · split
    · simp [Step.cursor]
      exact fun m hm => Or.inl hm
    · split
      · simp only
        split
        · refine ⟨?_, by simp, rfl, rfl⟩
          intro m hm
          simp only [Step.cursor] at hm
          split at hm
          · rcases List.mem_append.1 hm with h | h
            · exact Or.inl h
            · exact Or.inr (by simpa using h)
          · exact Or.inl hm
        · refine ⟨?_, by simp, rfl, rfl⟩
          intro m hm
          simp only [Step.cursor] at hm
          split at hm
          · rcases List.mem_append.1 hm with h | h
            · exact Or.inl h
            · exact Or.inr (by simpa using h)
          · exact Or.inl hm
      · simp [Step.cursor]
        exact fun m hm => Or.inl hm

theorem tokenStep_frame (mem : List Byte) (pak_len raw_len : Nat) (c : Cursor) :
    (∀ m, m ∈ (tokenStep mem pak_len raw_len c).cursor.msgs →
        m ∈ c.msgs ∨ m = Msg.wrongDecodedLength) ∧
      (∀ c1, tokenStep mem pak_len raw_len c = .fault c1 → c1.raw = c.raw) := by
  unfold tokenStep
  simp only
  split
  · split
    · simp [Step.cursor]
      exact fun m hm => Or.inl hm
    · split
      · rename_i f _
        have h := tokenBody_frame mem pak_len raw_len
          { c with pak := c.pak + 1, flags := f.val, mask := LZS_MASK,
                   reads := c.reads ++ [(.flag, c.pak)] }
        exact ⟨h.1, h.2.1⟩
      · simp [Step.cursor]
        exact fun m hm => Or.inl hm
  · have h := tokenBody_frame mem pak_len raw_len { c with mask := c.mask >>> LZS_SHIFT }
    exact ⟨h.1, h.2.1⟩

theorem tokenStep_cursor_raw (mem : List Byte) (pak_len raw_len : Nat) (c : Cursor)
    (hlt : c.raw.length < raw_len) :
    c.raw.length ≤ (tokenStep mem pak_len raw_len c).cursor.raw.length ∧
      (tokenStep mem pak_len raw_len c).cursor.raw.length ≤ raw_len := by
  cases h : tokenStep mem pak_len raw_len c with
  | next c1 =>
    have := tokenStep_next h hlt
    simp only [Step.cursor]; omega
  | stop c1 =>
    have := (tokenStep_stop h).1
    simp only [Step.cursor, this]; omega
  | fault c1 =>
    have := (tokenStep_frame mem pak_len raw_len c).2 c1 h
    simp only [Step.cursor, this]; omega

/-! ### The token loop, continued -/

theorem tokenLoop_bound (mem : List Byte) (pak_len raw_len : Nat) :
    ∀ (fuel : Nat) (c c1 : Cursor), c.raw.length ≤ raw_len →
      (tokenLoop mem pak_len raw_len fuel c = .finished c1 ∨
        tokenLoop mem pak_len raw_len fuel c = .fault c1) →
      c1.raw.length ≤ raw_len ∧
        ∀ m, m ∈ c1.msgs → m ∈ c.msgs ∨ m = Msg.wrongDecodedLength := by
  intro fuel
  induction fuel with
  | zero =>
    intro c c1 hle h
    rw [tokenLoop] at h
    split at h
    · simp at h
    · simp only [Loop.finished.injEq, reduceCtorEq, or_false] at h
      subst h
      exact ⟨hle, fun m hm => Or.inl hm⟩
  | succ n ih =>
    intro c c1 hle h
    rw [tokenLoop] at h
    split at h
    · rename_i hlt
      have hraw := tokenStep_cursor_raw mem pak_len raw_len c hlt
      have hmsg := (tokenStep_frame mem pak_len raw_len c).1
      split at h
      · rename_i c2 hstep
        rw [hstep] at hraw hmsg
        simp only [Step.cursor] at hraw hmsg
        obtain ⟨a, b⟩ := ih c2 c1 hraw.2 h
        refine ⟨a, fun m hm => ?_⟩
        rcases b m hm with h1 | h1
        · exact hmsg m h1
        · exact Or.inr h1
      · rename_i c2 hstep
        rw [hstep] at hraw hmsg
        simp only [Step.cursor] at hraw hmsg
        simp only [Loop.finished.injEq, reduceCtorEq, or_false] at h
        subst h
        exact ⟨hraw.2, hmsg⟩
      · rename_i c2 hstep
        rw [hstep] at hraw hmsg
        simp only [Step.cursor] at hraw hmsg
        simp only [reduceCtorEq, Loop.fault.injEq, false_or] at h
        subst h
        exact ⟨hraw.2, hmsg⟩
    · simp only [Loop.finished.injEq, reduceCtorEq, or_false] at h
      subst h
      exact ⟨hle, fun m hm => Or.inl hm⟩

theorem tokenIter_bound (mem : List Byte) (pak_len raw_len : Nat) :
    ∀ (n : Nat) (c c1 : Cursor), tokenIter mem pak_len raw_len n c = some c1 →
      c.raw.length + n ≤ c1.raw.length ∧ (c.raw.length ≤ raw_len → c1.raw.length ≤ raw_len) := by
  intro n
  induction n with
  | zero =>
    intro c c1 h
    simp only [tokenIter, Option.some.injEq] at h
    subst h
    simp
  | succ n ih =>
    intro c c1 h
    rw [tokenIter] at h
    split at h
    · rename_i hlt
      split at h
      · rename_i c2 hstep
        have h1 := tokenStep_next hstep hlt
        have h2 := ih c2 c1 h
        exact ⟨by omega, fun _ => h2.2 h1.2.1⟩
      · simp at h
    · simp at h

theorem tokenIter_none (mem : List Byte) (pak_len raw_len : Nat) (n : Nat) (c : Cursor)
    (hle : c.raw.length ≤ raw_len) (hn : raw_len - c.raw.length < n) :
    tokenIter mem pak_len raw_len n c = none := by
  cases h : tokenIter mem pak_len raw_len n c with
  | none => rfl
  | some c1 =>
    have := tokenIter_bound mem pak_len raw_len n c c1 h
    have := this.2 hle
    omega

theorem tokenLoop_iter (mem : List Byte) (pak_len raw_len : Nat) :
    ∀ (n : Nat) (c c1 : Cursor) (fuel : Nat), tokenIter mem pak_len raw_len n c = some c1 →
      tokenLoop mem pak_len raw_len (fuel + n) c = tokenLoop mem pak_len raw_len fuel c1 := by
  intro n
  induction n with
  | zero =>
    intro c c1 fuel h
    simp only [tokenIter, Option.some.injEq] at h
    subst h
    rfl
  | succ n ih =>
    intro c c1 fuel h
    rw [tokenIter] at h
    split at h
    · rename_i hlt
      split at h
      · rename_i c2 hstep
        have e : fuel + (n + 1) = (fuel + n) + 1 := by omega
        rw [e, tokenLoop, if_pos hlt, hstep]
        exact ih c2 c1 fuel h
      · simp at h
    · simp at h

theorem decodeChunk_eq (mem : List Byte) (pak_len pak flags : Nat) :
    decodeChunk mem pak_len pak flags =
      match readHeader mem pak with
      | none => .fault { chunkStart pak flags with pak := pak }
      | some raw_len =>
        match tokenLoop mem pak_len raw_len raw_len (chunkStart pak flags) with
        | .finished c =>
          .done raw_len
            (if c.raw.length ≠ raw_len then { c with msgs := c.msgs ++ [.unexpectedEnd] }
             else c)
        | .fault c => .fault c
        | .outOfFuel => .outOfFuel := rfl

theorem decodeChunk_msgs {mem : List Byte} {pak_len pak flags : Nat} {c : Cursor}
    (h : (∃ n, decodeChunk mem pak_len pak flags = .done n c) ∨
      decodeChunk mem pak_len pak flags = .fault c) :
    ∀ m, m ∈ c.msgs → m = Msg.wrongDecodedLength ∨ m = Msg.unexpectedEnd := by
  rw [decodeChunk_eq] at h
  split at h
  · rcases h with ⟨n, h⟩ | h
    · simp at h
    · simp only [ChunkResult.fault.injEq] at h
      subst h
      simp [chunkStart]
  · rename_i rl _
    split at h
    · rename_i c1 hloop
      have hb := (tokenLoop_bound mem pak_len rl rl (chunkStart pak flags) c1
        (by simp [chunkStart]) (Or.inl hloop)).2
      rcases h with ⟨n, h⟩ | h
      · simp only [ChunkResult.done.injEq] at h
        obtain ⟨_, h⟩ := h
        subst h
        intro m hm
        split at hm
        · rcases List.mem_append.1 hm with h1 | h1
          · rcases hb m h1 with h2 | h2
            · simp [chunkStart] at h2
            · exact Or.inl h2
          · exact Or.inr (by simpa using h1)
        · rcases hb m hm with h2 | h2
          · simp [chunkStart] at h2
          · exact Or.inl h2
      · simp at h
    · rename_i c1 hloop
      have hb := (tokenLoop_bound mem pak_len rl rl (chunkStart pak flags) c1
        (by simp [chunkStart]) (Or.inr hloop)).2
      rcases h with ⟨n, h⟩ | h
      · simp at h
      · simp only [ChunkResult.fault.injEq] at h
        subst h
        intro m hm
        rcases hb m hm with h2 | h2
        · simp [chunkStart] at h2
        · exact Or.inl h2
    · rcases h with ⟨n, h⟩ | h <;> simp at h

theorem finish_same (mem : List Byte) (r : Run) (b : Byte) (hb : mem[r.pak]? = some b)
    (hne : b.val ≠ CMD_CODE_10) :
    finish mem r = { status := .returned, run := { r with reads := r.reads ++ [(.last, r.pak)] } } := by
  simp only [finish, hb, if_neg hne]

theorem chunkLoop_noMore (mem : List Byte) (pak_len : Nat) :
    ∀ (fuel : Nat) (r : Run), Msg.moreToDecode ∉ r.msgs →
      Msg.moreToDecode ∉ (chunkLoop mem pak_len fuel r).run.msgs := by
  intro fuel
  induction fuel with
  | zero => intro r h; simpa [chunkLoop] using h
  | succ n ih =>
    intro r h
    rw [chunkLoop]
    split
    · exact h
    · rename_i c hc
      have hm := decodeChunk_msgs (Or.inr hc)
      simp only [List.mem_append, not_or]
      refine ⟨h, fun hin => ?_⟩
      rcases hm _ hin with h1 | h1 <;> cases h1
    · rename_i rl c hc
      have hm := decodeChunk_msgs (Or.inl ⟨rl, hc⟩)
      have h1 : Msg.moreToDecode ∉ r.msgs ++ c.msgs := by
        simp only [List.mem_append, not_or]
        refine ⟨h, fun hin => ?_⟩
        rcases hm _ hin with h1 | h1 <;> cases h1
      simp only
      split
      · rename_i b hb
        split
        · rename_i hne
          rw [finish_same mem _ b hb hne]
          exact h1
        · exact ih _ h1
      · exact h1

/-- Either the call ends before the chunk loop, with the file untouched and no
chunk decoded, or it is the chunk loop started at the chunk the scan found. -/
theorem LZS_Decode_cases (file : List Byte) :
    ((LZS_Decode file).run.chunks = [] ∧ (LZS_Decode file).run.reads = [] ∧
        (LZS_Decode file).run.dest = file ∧
        ∀ m, m ∈ (LZS_Decode file).run.msgs →
          m = Msg.fileSizeError ∨ m = Msg.notWildWorld ∨ m = Msg.notLZSS) ∨
      ∃ mem pak_len x, Load file LZS_MINIM LZS_MAXIM = some (mem, pak_len) ∧
        mem[0]? = some 76 ∧ scan mem = .found x ∧
        LZS_Decode file = chunkLoop mem pak_len mem.length
          { Run.start file with pak := x, dest := [], emptied := true } := by
  cases hload : Load file LZS_MINIM LZS_MAXIM with
  | none =>
    left
    rw [LZS_Decode_sizeError hload]
    simp [Run.start]
  | some p =>
    obtain ⟨mem, pak_len⟩ := p
    by_cases h0 : mem[0]? = some 76
    · have hd := LZS_Decode_scan hload h0
      cases hs : scan mem with
      | found x =>
        right
        rw [hs] at hd
        exact ⟨mem, pak_len, x, rfl, h0, hs, hd⟩
      | notFound =>
        left
        rw [hs] at hd
        simp only at hd
        rw [hd]
        simp [Run.start]
      | fault =>
        left
        rw [hs] at hd
        simp only at hd
        rw [hd]
        simp [Run.start]
      | outOfFuel => exact absurd hs (scan_char mem).2.2.2
    · left
      rw [LZS_Decode_notWildWorld hload h0]
      simp [Run.start]

/-- Claim C11: the write position of the chunk decoder never leaves
0 .. declared length.  Whichever way an iteration of the token loop ends
(literal, back-reference, break or fault) the number of bytes written does not
decrease and does not exceed `raw_len`; so it is for the cursor before every
token, for the cursor with which the loop ends, for the cursor of every chunk
decoded, and for the bytes saved for every chunk of every run. -/
theorem C11_write_position_bounded (mem : List Byte) (pak_len : Nat) :
    (∀ raw_len c, c.raw.length < raw_len →
      c.raw.length ≤ (tokenStep mem pak_len raw_len c).cursor.raw.length ∧
        (tokenStep mem pak_len raw_len c).cursor.raw.length ≤ raw_len) ∧
    (∀ raw_len n pak flags c, tokenIter mem pak_len raw_len n (chunkStart pak flags) = some c →
      c.raw.length ≤ raw_len) ∧
    (∀ raw_len fuel pak flags c,
      (tokenLoop mem pak_len raw_len fuel (chunkStart pak flags) = .finished c ∨
        tokenLoop mem pak_len raw_len fuel (chunkStart pak flags) = .fault c) →
      c.raw.length ≤ raw_len) ∧
    (∀ pak flags raw_len c, decodeChunk mem pak_len pak flags = .done raw_len c →
      c.raw.length ≤ raw_len) ∧
    (∀ file ch, ch ∈ (LZS_Decode file).run.chunks → ch.saved.length ≤ ch.declared) := by
  refine ⟨fun raw_len c h => tokenStep_cursor_raw mem pak_len raw_len c h, ?_, ?_, ?_, ?_⟩
  · intro raw_len n pak flags c h
    exact (tokenIter_bound mem pak_len raw_len n _ c h).2 (by simp [chunkStart])
  · intro raw_len fuel pak flags c h
    exact (tokenLoop_bound mem pak_len raw_len fuel _ c (by simp [chunkStart]) h).1
  · intro pak flags raw_len c h
    exact (decodeChunk_done h).2.2.1
  · intro file ch hch
    rcases LZS_Decode_cases file with h | ⟨m, pl, x, _, _, _, hd⟩
    · rw [h.1] at hch
      simp at hch
    · obtain ⟨cs, tl, i1, _, _, _, _, i6⟩ := chunkLoop_inv m pl m.length
        { Run.start file with pak := x, dest := [], emptied := true }
      rw [← hd] at i1
      simp only [Run.start, List.nil_append] at i1
      rw [i1] at hch
      exact (i6 ch hch).1

/-- Claim C11 on a chunk that declares 4 bytes and holds a literal and a
back-reference of length 9: 4 bytes are saved. -/
theorem C11_write_position_bounded_witness :
    (LZS_Decode ([76, 0, 0, 0, 0, 0, 0, 0, 0, 0] ++ [16, 4, 0, 0, 0x40, 65, 0x60, 0x00])).run.chunks
        = [{ start := 10, declared := 4, saved := [65, 65, 65, 65] }] ∧
      ([65, 65, 65, 65] : List Byte).length ≤ 4 :=
  ⟨by decide,
   (C11_write_position_bounded [] 0).2.2.2.2
     ([76, 0, 0, 0, 0, 0, 0, 0, 0, 0] ++ [16, 4, 0, 0, 0x40, 65, 0x60, 0x00])
     { start := 10, declared := 4, saved := [65, 65, 65, 65] } (by decide)⟩

/-- Claim C17: the token loop of a chunk terminates.  An iteration that comes
back to the loop test has written at least one byte (a clamped back-reference
included), any other iteration ends the chunk; hence at most `raw_len`
iterations come back to the test (`raw_len + 1` is never reached), the loop
run with fuel `raw_len` is never out of fuel, and neither is a chunk. -/
theorem C17_token_loop_terminates (mem : List Byte) (pak_len raw_len : Nat) :
    (∀ c, c.raw.length < raw_len →
      (∃ c1, tokenStep mem pak_len raw_len c = .next c1 ∧ c.raw.length < c1.raw.length) ∨
      (∃ c1, tokenStep mem pak_len raw_len c = .stop c1) ∨
      (∃ c1, tokenStep mem pak_len raw_len c = .fault c1)) ∧
    (∀ n pak flags c, tokenIter mem pak_len raw_len n (chunkStart pak flags) = some c →
      n ≤ c.raw.length ∧ c.raw.length ≤ raw_len) ∧
    (∀ n pak flags, raw_len < n →
      tokenIter mem pak_len raw_len n (chunkStart pak flags) = none) ∧
    (∀ fuel c, raw_len - c.raw.length ≤ fuel →
      tokenLoop mem pak_len raw_len fuel c ≠ .outOfFuel) ∧
    (∀ pak flags, decodeChunk mem pak_len pak flags ≠ .outOfFuel) := by
  refine ⟨?_, ?_, ?_, tokenLoop_fuel mem pak_len raw_len,
    fun pak flags => decodeChunk_ne_outOfFuel mem pak_len pak flags⟩
  · intro c hlt
    cases h : tokenStep mem pak_len raw_len c with
    | next c1 => exact Or.inl ⟨c1, rfl, (tokenStep_next h hlt).1⟩
    | stop c1 => exact Or.inr (Or.inl ⟨c1, rfl⟩)
    | fault c1 => exact Or.inr (Or.inr ⟨c1, rfl⟩)
  · intro n pak flags c h
    have := tokenIter_bound mem pak_len raw_len n _ c h
    simp only [chunkStart, List.length_nil, Nat.zero_add, Nat.zero_le, forall_const] at this
    exact this
  · intro n pak flags hn
    exact tokenIter_none mem pak_len raw_len n _ (by simp [chunkStart])
      (by simp [chunkStart]; omega)

/-- Claim C17 on a chunk that declares 3 bytes: three iterations, no fourth. -/
theorem C17_token_loop_terminates_witness :
    tokenIter [16, 3, 0, 0, 0x00, 65, 66, 67, 0, 0, 0] 8 3 3 (chunkStart 0 0)
        = some { pak := 8, raw := [65, 66, 67], flags := 0, mask := 0x20, msgs := [],
                 reads := headerReads 0 ++ [(.flag, 4), (.literal, 5), (.literal, 6),
                   (.literal, 7)] } ∧
      tokenIter [16, 3, 0, 0, 0x00, 65, 66, 67, 0, 0, 0] 8 3 4 (chunkStart 0 0) = none ∧
      decodeChunk [16, 3, 0, 0, 0x00, 65, 66, 67, 0, 0, 0] 8 0 0 ≠ .outOfFuel :=
  ⟨by decide,
   (C17_token_loop_terminates [16, 3, 0, 0, 0x00, 65, 66, 67, 0, 0, 0] 8 3).2.2.1 4 0 0
     (by decide),
   (C17_token_loop_terminates [16, 3, 0, 0, 0x00, 65, 66, 67, 0, 0, 0] 8 3).2.2.2.2 0 0⟩

/-- Claim C18: no run reports `there is more to decode`.  The chunk loop is left
only when the byte at the cursor is not the chunk magic, and the test after
the loop reads the same byte at the same cursor, so it adds no message. -/
theorem C18_never_more_to_decode (file : List Byte) :
    Msg.moreToDecode ∉ (LZS_Decode file).run.msgs ∧
      (∀ (mem : List Byte) (r : Run) (b : Byte), mem[r.pak]? = some b → b.val ≠ CMD_CODE_10 →
        (finish mem r).run.msgs = r.msgs ∧ (finish mem r).run.pak = r.pak) := by
  constructor
  · rcases LZS_Decode_cases file with h | ⟨m, pl, x, _, _, _, hd⟩
    · intro hin
      rcases h.2.2.2 _ hin with h1 | h1 | h1 <;> cases h1
    · rw [hd]
      exact chunkLoop_noMore m pl m.length _ (by simp [Run.start])
  · intro mem r b hb hne
    rw [finish_same mem r b hb hne]
    exact ⟨rfl, rfl⟩

/-- Claim C18 on a truncated chunk: the only message is `unexpected end`. -/
theorem C18_never_more_to_decode_witness :
    (LZS_Decode ([76, 0, 0, 0, 0, 0, 0, 0, 0, 0] ++ [16, 5, 0, 0, 0x00, 65, 66])).run.msgs
        = [.unexpectedEnd] ∧
    Msg.moreToDecode
      ∉ (LZS_Decode ([76, 0, 0, 0, 0, 0, 0, 0, 0, 0] ++ [16, 5, 0, 0, 0x00, 65, 66])).run.msgs :=
  ⟨by decide,
   (C18_never_more_to_decode
     ([76, 0, 0, 0, 0, 0, 0, 0, 0, 0] ++ [16, 5, 0, 0, 0x00, 65, 66])).1⟩

theorem readHeader_bytes (mem : List Byte) (pak : Nat) (b0 b1 b2 b3 : Byte)
    (h0 : mem[pak]? = some b0) (h1 : mem[pak + 1]? = some b1)
    (h2 : mem[pak + 2]? = some b2) (h3 : mem[pak + 3]? = some b3) :
    readHeader mem pak = some (b1.val + 256 * b2.val + 65536 * b3.val) := by
  simp only [readHeader, h0, h1, h2, h3, Nat.shiftRight_eq_div_pow]
  congr 1
  omega

/-- Claim C13: for a header `b0 b1 b2 b3` at `pak`, the declared length the
decoder computes is `b1 + 256 * b2 + 65536 * b3`, whatever `b0` is, and is below
2^24; a chunk that is decoded has that declared length, its token loop started
at `pak + 4` with nothing written, and its cursor is at least there (exactly
there when the declared length is 0). -/
theorem C13_declared_length (mem : List Byte) (pak_len pak flags : Nat) (b0 b1 b2 b3 : Byte)
    (h0 : mem[pak]? = some b0) (h1 : mem[pak + 1]? = some b1)
    (h2 : mem[pak + 2]? = some b2) (h3 : mem[pak + 3]? = some b3) :
    readHeader mem pak = some (b1.val + 256 * b2.val + 65536 * b3.val) ∧
      b1.val + 256 * b2.val + 65536 * b3.val < 2 ^ 24 ∧
      (∀ (mem1 : List Byte) (a0 : Byte), mem1[pak]? = some a0 → mem1[pak + 1]? = some b1 →
        mem1[pak + 2]? = some b2 → mem1[pak + 3]? = some b3 →
        readHeader mem1 pak = readHeader mem pak) ∧
      (chunkStart pak flags).pak = pak + 4 ∧ (chunkStart pak flags).raw = [] ∧
      (∀ n c, decodeChunk mem pak_len pak flags = .done n c →
        n = b1.val + 256 * b2.val + 65536 * b3.val ∧ pak + 4 ≤ c.pak ∧
          (n = 0 → c.pak = pak + 4) ∧
          ∃ c1, tokenLoop mem pak_len n n (chunkStart pak flags) = .finished c1 ∧
            c1.pak = c.pak ∧ c1.raw = c.raw) := by
  have hr := readHeader_bytes mem pak b0 b1 b2 b3 h0 h1 h2 h3
  refine ⟨hr, by omega, ?_, rfl, rfl, ?_⟩
  · intro mem1 a0 g0 g1 g2 g3
    rw [hr, readHeader_bytes mem1 pak a0 b1 b2 b3 g0 g1 g2 g3]
  · intro n c hd
    have h := decodeChunk_done hd
    rw [hr] at h
    have hn : b1.val + 256 * b2.val + 65536 * b3.val = n := by
      have := h.1; simp only [Option.some.injEq] at this; exact this
    rw [decodeChunk_eq, hr] at hd
    simp only at hd
    rw [hn] at hd
    cases hL : tokenLoop mem pak_len n n (chunkStart pak flags) with
    | finished c1 =>
      rw [hL] at hd
      simp only [ChunkResult.done.injEq, true_and] at hd
      have hc : c1.pak = c.pak ∧ c1.raw = c.raw := by
        rw [← hd]; split <;> exact ⟨rfl, rfl⟩
      refine ⟨hn.symm, h.2.1, fun hz => ?_, c1, rfl, hc⟩
      rw [tokenLoop_full _ _ _ _ _ (by simp [chunkStart]; omega)] at hL
      simp only [Loop.finished.injEq] at hL
      rw [← hc.1, ← hL]
      rfl
    | fault c1 => rw [hL] at hd; simp at hd
    | outOfFuel => rw [hL] at hd; simp at hd

/-- Claim C13 on the header 0x10 0x34 0x12 0x00: declared length 0x1234. -/
theorem C13_declared_length_witness :
    ([16, 0x34, 0x12, 0, 0] : List Byte)[0]? = some 16 ∧
    readHeader [16, 0x34, 0x12, 0, 0] 0 = some 0x1234 ∧
    readHeader [16, 0x34, 0x12, 0, 0] 0
      = some ((0x34 : Byte).val + 256 * (0x12 : Byte).val + 65536 * (0 : Byte).val) :=
  ⟨by decide, by decide,
   (C13_declared_length [16, 0x34, 0x12, 0, 0] 5 0 0 16 0x34 0x12 0
     (by decide) (by decide) (by decide) (by decide)).1⟩

/-- Claim C14: for the two bytes `b0 b1` of a back-reference the decoder's value
is `v = 256 * b0 + b1`, a 16-bit value; it derives `length = v / 4096 + 3`, in
3..18, and `offset = v % 4096 + 1`, in 1..4096; on the 16-bit values the map
`v ↦ (offset, length)` is injective and reaches every pair of
[1, 4096] x [3, 18], and every 16-bit value is the value of two bytes. -/
theorem C14_length_offset :
    (∀ b0 b1 : Byte, refValue b0 b1 = 256 * b0.val + b1.val ∧ refValue b0 b1 < 65536) ∧
    (∀ v, refLength v = (v >>> 12) + 3 ∧ refLength v = v / 4096 + 3 ∧
      refOffset v = (v &&& 0x0FFF) + 1 ∧ refOffset v = v % 4096 + 1) ∧
    (∀ v, v < 65536 → 3 ≤ refLength v ∧ refLength v ≤ 18 ∧ 1 ≤ refOffset v ∧
      refOffset v ≤ 4096) ∧
    (∀ v w, v < 65536 → w < 65536 → refOffset v = refOffset w → refLength v = refLength w →
      v = w) ∧
    (∀ o l, 1 ≤ o → o ≤ 4096 → 3 ≤ l → l ≤ 18 →
      ∃ v, v < 65536 ∧ refOffset v = o ∧ refLength v = l) ∧
    (∀ v, v < 65536 → ∃ b0 b1 : Byte, refValue b0 b1 = v) := by
  have hv : ∀ b0 b1 : Byte, refValue b0 b1 = 256 * b0.val + b1.val := fun b0 b1 => by
    rw [refValue, shl8_or]
  have hl : ∀ v, refLength v = v / 4096 + 3 := fun v => by
    rw [refLength, shr12]; rfl
  have ho : ∀ v, refOffset v = v % 4096 + 1 := fun v => by
    rw [refOffset, and_fff]
  refine ⟨fun b0 b1 => ⟨hv b0 b1, by rw [hv]; omega⟩, fun v => ⟨rfl, hl v, rfl, ho v⟩,
    ?_, ?_, ?_, ?_⟩
  · intro v h
    rw [hl, ho]; omega
  · intro v w h1 h2 e1 e2
    rw [ho, ho] at e1
    rw [hl, hl] at e2
    omega
  · intro o l h1 h2 h3 h4
    refine ⟨4096 * (l - 3) + (o - 1), by omega, ?_, ?_⟩
    · rw [ho]; omega
    · rw [hl]; omega
  · intro v h
    refine ⟨⟨v / 256, by omega⟩, ⟨v % 256, by omega⟩, ?_⟩
    rw [hv]
    simp only []
    omega

/-- Claim C14 on the bytes 0x60 0x00: length 9, offset 1; and on 0xFF 0xFF:
length 18, offset 4096. -/
theorem C14_length_offset_witness :
    refLength (refValue 0x60 0x00) = 9 ∧ refOffset (refValue 0x60 0x00) = 1 ∧
    refLength (refValue 0xFF 0xFF) = 18 ∧ refOffset (refValue 0xFF 0xFF) = 4096 ∧
    3 ≤ refLength 0x6000 ∧ refLength 0x6000 ≤ 18 ∧ 1 ≤ refOffset 0x6000 ∧
      refOffset 0x6000 ≤ 4096 :=
  ⟨by decide, by decide, by decide, by decide,
   C14_length_offset.2.2.1 0x6000 (by decide)⟩

/-! ### All-literal bitstreams of any length -/

theorem flagByte_lits (bs : List Byte) : flagByte (bs.map Token.lit) = 0 := by
  apply Fin.ext
  simp [flagByte, flagBits_lits]

theorem serialiseFrom_lits_take : ∀ (bs : List Byte) (r : Nat),
    serialiseFrom r (bs.map Token.lit)
      = bs.take r ++ serialiseFrom 0 ((bs.drop r).map Token.lit) := by
  intro bs
  induction bs with
  | nil => intro r; cases r <;> simp [serialiseFrom]
  | cons b bs ih =>
    intro r
    cases r with
    | zero => simp
    | succ r =>
      simp only [List.map_cons, serialiseFrom, tokenBytes, List.singleton_append,
        List.take_succ_cons, List.drop_succ_cons, List.cons_append]
      rw [ih r]
      simp

theorem literalGroups_eq : ∀ (n : Nat) (bs : List Byte), bs.length ≤ n →
    literalGroups n bs = serialiseFrom 0 (bs.map Token.lit) := by
  intro n
  induction n with
  | zero =>
    intro bs h
    have : bs = [] := List.length_eq_zero.1 (by omega)
    subst this
    simp [literalGroups, serialiseFrom]
  | succ n ih =>
    intro bs h
    cases bs with
    | nil => simp [literalGroups, serialiseFrom]
    | cons b bs =>
      have hf := flagByte_lits (b :: bs)
      simp only [List.map_cons] at hf
      rw [literalGroups, if_neg (by simp)]
      simp only [List.map_cons, serialiseFrom, hf, tokenBytes, List.singleton_append,
        List.take_succ_cons, List.drop_succ_cons, List.cons_append]
      rw [serialiseFrom_lits_take bs 7, ih (bs.drop 7) (by simp at h ⊢; omega)]
      simp

theorem literalGroups_length : ∀ (n : Nat) (bs : List Byte), bs.length ≤ n →
    (literalGroups n bs).length = (bs.length + 7) / 8 + bs.length := by
  intro n
  induction n with
  | zero =>
    intro bs h
    have : bs = [] := List.length_eq_zero.1 (by omega)
    subst this
    simp [literalGroups]
  | succ n ih =>
    intro bs h
    cases bs with
    | nil => simp [literalGroups]
    | cons b bs =>
      rw [literalGroups, if_neg (by simp)]
      simp only [List.length_cons, List.length_append, List.take_succ_cons, List.drop_succ_cons,
        List.length_take]
      rw [ih (bs.drop 7) (by simp at h ⊢; omega)]
      simp only [List.length_drop]
      omega

theorem chunkHeader_value (n : Nat) (h : n < 2 ^ 24) :
    ∃ b1 b2 b3 : Byte, chunkHeader n = [16, b1, b2, b3] ∧
      b1.val + 256 * b2.val + 65536 * b3.val = n := by
  refine ⟨_, _, _, rfl, ?_⟩
  simp only []
  omega

/-- Claim C19: for every byte sequence B of length N < 2^24, the chunk made of
the header (0x10, N as 3 little-endian bytes) and of B split into groups of up
to 8 bytes, each preceded by a flag byte 0x00, decodes to exactly B with no
warning; the decoder's cursor ends 4 + (N + 7) / 8 + N bytes after the chunk
start, which is the whole chunk ((N + 7) / 8 is N / 8 rounded up). -/
theorem C19_all_literal_stream (bs pre post : List Byte) (pak_len flags : Nat)
    (hN : bs.length < 2 ^ 24)
    (hend : pre.length + 4 + (literalStream bs).length ≤ pak_len) :
    ∃ c, decodeChunk (pre ++ chunkHeader bs.length ++ literalStream bs ++ post) pak_len
            pre.length flags = .done bs.length c ∧
         c.raw = bs ∧ c.msgs = [] ∧
         c.pak = pre.length + 4 + (bs.length + 7) / 8 + bs.length ∧
         (literalStream bs).length = (bs.length + 7) / 8 + bs.length ∧
         (bs.length + 7) / 8 = bs.length / 8 + (if bs.length % 8 = 0 then 0 else 1) := by
  obtain ⟨b1, b2, b3, hh, hv⟩ := chunkHeader_value bs.length hN
  have hs : literalStream bs = serialise (bs.map Token.lit) :=
    literalGroups_eq bs.length bs (Nat.le_refl _)
  have hl : (literalStream bs).length = (bs.length + 7) / 8 + bs.length :=
    literalGroups_length bs.length bs (Nat.le_refl _)
  obtain ⟨c, h1, h2, h3, h4⟩ :=
    decodeChunk_serialised (bs.map Token.lit) pre post 16 b1 b2 b3 pak_len flags
      (validTokens_lits _ _) (by rw [expand_lits]; simp [hv])
      (by rw [← hs]; exact hend)
  simp only [expand_lits, List.nil_append] at h1 h2
  rw [← hs] at h1 h3
  refine ⟨c, ?_, h2, h4, by rw [h3, hl]; omega, hl, by split <;> omega⟩
  rw [hh]
  simpa using h1

/-- Claim C19 on the 9 bytes 1 .. 9: two groups, 4 + 2 + 9 bytes consumed. -/
theorem C19_all_literal_stream_witness :
    [(1 : Byte), 2, 3, 4, 5, 6, 7, 8, 9].length < 2 ^ 24 ∧
    literalStream [1, 2, 3, 4, 5, 6, 7, 8, 9] = [0, 1, 2, 3, 4, 5, 6, 7, 8, 0, 9] ∧
    [76].length + 4 + (literalStream [1, 2, 3, 4, 5, 6, 7, 8, 9]).length ≤ 16 ∧
    ∃ c, decodeChunk ([76] ++ chunkHeader [(1 : Byte), 2, 3, 4, 5, 6, 7, 8, 9].length
            ++ literalStream [1, 2, 3, 4, 5, 6, 7, 8, 9] ++ [0, 0, 0]) 16
            [76].length 0 = .done [(1 : Byte), 2, 3, 4, 5, 6, 7, 8, 9].length c ∧
         c.raw = [1, 2, 3, 4, 5, 6, 7, 8, 9] ∧ c.msgs = [] ∧
         c.pak = [76].length + 4 + ([(1 : Byte), 2, 3, 4, 5, 6, 7, 8, 9].length + 7) / 8
                  + [(1 : Byte), 2, 3, 4, 5, 6, 7, 8, 9].length ∧
         (literalStream [1, 2, 3, 4, 5, 6, 7, 8, 9]).length
            = ([(1 : Byte), 2, 3, 4, 5, 6, 7, 8, 9].length + 7) / 8
                + [(1 : Byte), 2, 3, 4, 5, 6, 7, 8, 9].length ∧
         ([(1 : Byte), 2, 3, 4, 5, 6, 7, 8, 9].length + 7) / 8
            = [(1 : Byte), 2, 3, 4, 5, 6, 7, 8, 9].length / 8
                + (if [(1 : Byte), 2, 3, 4, 5, 6, 7, 8, 9].length % 8 = 0 then 0 else 1) :=
  ⟨by decide, by decide, by decide,
   C19_all_literal_stream [1, 2, 3, 4, 5, 6, 7, 8, 9] [76] [0, 0, 0] 16 0 (by decide)
     (by decide)⟩

/-! ### Flag bytes and token numbers -/

theorem mask_pow (k : Nat) (h : k < 8) : LZS_MASK >>> k = 2 ^ (7 - k) := by
  interval_cases k <;> decide

theorem maskBefore_succ (m : Nat) : maskBefore (m + 1) = LZS_MASK >>> (m % 8) := by
  simp [maskBefore]

theorem maskBefore_shift (m : Nat) :
    maskBefore m >>> LZS_SHIFT = if m % 8 = 0 then 0 else LZS_MASK >>> (m % 8) := by
  cases m with
  | zero => simp [maskBefore]
  | succ m =>
    rw [maskBefore_succ, LZS_SHIFT, ← Nat.shiftRight_add]
    have hk : m % 8 < 8 := Nat.mod_lt _ (by decide)
    by_cases h : m % 8 = 7
    · have h0 : (m + 1) % 8 = 0 := by omega
      rw [if_pos h0, h]
      decide
    · have h1 : (m + 1) % 8 = m % 8 + 1 := by omega
      rw [if_neg (by omega), h1]

theorem and_mask_testBit (x k : Nat) (h : k < 8) :
    (x &&& LZS_MASK >>> k = 0) ↔ x.testBit (7 - k) = false := by
  rw [mask_pow k h, Nat.and_two_pow]
  have hp : 0 < 2 ^ (7 - k) := Nat.two_pow_pos _
  cases hb : x.testBit (7 - k)
  · simp
  · simp only [Bool.toNat_true, Nat.one_mul, reduceCtorEq, iff_false]
    omega

theorem tokenBody_kind {mem : List Byte} {pak_len raw_len : Nat} {c c1 : Cursor}
    (h : tokenBody mem pak_len raw_len c = .next c1) :
    c1.flags = c.flags ∧ c1.mask = c.mask ∧
      ((c.flags &&& c.mask = 0 ∧ c1.reads = c.reads ++ [(.literal, c.pak)]) ∨
       (c.flags &&& c.mask ≠ 0 ∧
         c1.reads = c.reads ++ [(.backref, c.pak), (.backref, c.pak + 1)])) := by
  unfold tokenBody at h
  split at h
  · rename_i h0
    split at h
    · simp at h
    · split at h
      · simp only [Step.next.injEq] at h
        subst h
        exact ⟨rfl, rfl, Or.inl ⟨h0, rfl⟩⟩
      · simp at h
  · rename_i h0
    split at h
    · simp at h
    · split at h
      · simp only at h
        split at h
        · simp only [Step.next.injEq] at h
          subst h
          exact ⟨rfl, rfl, Or.inr ⟨h0, rfl⟩⟩
        · simp at h
      · simp at h

theorem flagReads_append (a b : List (ReadKind × Nat)) :
    flagReads (a ++ b) = flagReads a ++ flagReads b := by
  simp [flagReads]

/-- The step that reads token number `m`, from a cursor whose `mask` is the one
before token `m`. -/
theorem tokenStep_token {mem : List Byte} {pak_len raw_len : Nat} {c c1 : Cursor} (m : Nat)
    (hmask : c.mask = maskBefore m)
    (h : tokenStep mem pak_len raw_len c = .next c1) :
    c1.mask = maskBefore (m + 1) ∧
      (m % 8 = 0 → ∃ f : Byte, mem[c.pak]? = some f ∧ c1.flags = f.val ∧
        c1.reads = c.reads ++ (.flag, c.pak) ::
          (if f.val.testBit 7 = true then [(.backref, c.pak + 1), (.backref, c.pak + 1 + 1)]
           else [(.literal, c.pak + 1)])) ∧
      (m % 8 ≠ 0 → c1.flags = c.flags ∧
        c1.reads = c.reads ++
          (if c.flags.testBit (7 - m % 8) = true then [(.backref, c.pak), (.backref, c.pak + 1)]
           else [(.literal, c.pak)])) := by
  have hk : m % 8 < 8 := Nat.mod_lt _ (by decide)
  have hshift := maskBefore_shift m
  rw [← hmask] at hshift
  unfold tokenStep at h
  simp only at h
  by_cases hm : m % 8 = 0
  · rw [if_pos hm] at hshift
    rw [if_pos hshift] at h
    split at h
    · simp at h
    · split at h
      · rename_i f hf
        obtain ⟨k1, k2, k3⟩ := tokenBody_kind h
        simp only at k1 k2 k3
        refine ⟨by rw [k2, maskBefore_succ, hm]; rfl, fun _ => ⟨f, hf, k1, ?_⟩,
          fun hne => absurd hm hne⟩
        have ht := and_mask_testBit f.val 0 (by decide)
        simp only [Nat.shiftRight_zero, Nat.sub_zero] at ht
        rcases k3 with ⟨a, b⟩ | ⟨a, b⟩
        · rw [b, if_neg (by rw [ht.1 a]; simp)]
          simp
        · have : f.val.testBit 7 = true := by
            cases hb : f.val.testBit 7
            · exact absurd (ht.2 hb) a
            · rfl
          rw [b, if_pos this]
          simp
      · simp at h
  · rw [if_neg hm] at hshift
    have hne : ¬ (c.mask >>> LZS_SHIFT = 0) := by
      rw [hshift, mask_pow _ hk]
      exact Nat.pos_iff_ne_zero.1 (Nat.two_pow_pos _)
    rw [if_neg hne] at h
    obtain ⟨k1, k2, k3⟩ := tokenBody_kind h
    simp only at k1 k2 k3
    refine ⟨by rw [k2, maskBefore_succ, hshift], fun h0 => absurd h0 hm, fun _ => ⟨k1, ?_⟩⟩
    have ht := and_mask_testBit c.flags (m % 8) hk
    rw [hshift] at k3
    rcases k3 with ⟨a, b⟩ | ⟨a, b⟩
    · rw [b, if_neg (by rw [ht.1 a]; simp)]
    · have : c.flags.testBit (7 - m % 8) = true := by
        cases hb : c.flags.testBit (7 - m % 8)
        · exact absurd (ht.2 hb) a
        · rfl
      rw [b, if_pos this]

theorem tokenStep_flagReads {mem : List Byte} {pak_len raw_len : Nat} {c c1 : Cursor} (m : Nat)
    (hmask : c.mask = maskBefore m)
    (h : tokenStep mem pak_len raw_len c = .next c1) :
    flagReads c1.reads = flagReads c.reads ++ (if m % 8 = 0 then [c.pak] else []) := by
  obtain ⟨_, h1, h2⟩ := tokenStep_token m hmask h
  by_cases hm : m % 8 = 0
  · obtain ⟨f, _, _, hr⟩ := h1 hm
    rw [hr, if_pos hm]
    split <;> simp [flagReads]
  · obtain ⟨_, hr⟩ := h2 hm
    rw [hr, if_neg hm]
    split <;> simp [flagReads]

/-- Before token `m`: `mask` is the one of token `m - 1`, `(m + 7) / 8` flag
bytes have been read, and `flags` is the last of them. -/
theorem tokenStep_inv {mem : List Byte} {pak_len raw_len : Nat} {c c1 : Cursor} (m : Nat)
    (hmask : c.mask = maskBefore m)
    (hlen : (flagReads c.reads).length = (m + 7) / 8)
    (hlast : 0 < m → ∃ p f, (flagReads c.reads)[(m - 1) / 8]? = some p ∧
      mem[p]? = some f ∧ c.flags = f.val)
    (h : tokenStep mem pak_len raw_len c = .next c1) :
    c1.mask = maskBefore (m + 1) ∧
      (flagReads c1.reads).length = (m + 1 + 7) / 8 ∧
      ∃ p f, (flagReads c1.reads)[m / 8]? = some p ∧ mem[p]? = some f ∧ c1.flags = f.val := by
  have hfr := tokenStep_flagReads m hmask h
  obtain ⟨k1, k2, k3⟩ := tokenStep_token m hmask h
  by_cases hm : m % 8 = 0
  · obtain ⟨f, hf, hfl, _⟩ := k2 hm
    rw [if_pos hm] at hfr
    refine ⟨k1, by rw [hfr]; simp [hlen]; omega, c.pak, f, ?_, hf, hfl⟩
    rw [hfr, List.getElem?_append_right (by rw [hlen]; omega)]
    have : m / 8 - (flagReads c.reads).length = 0 := by rw [hlen]; omega
    rw [this]
    rfl
  · obtain ⟨hfl, _⟩ := k3 hm
    rw [if_neg hm, List.append_nil] at hfr
    have hpos : 0 < m := by omega
    obtain ⟨p, f, a, b, d⟩ := hlast hpos
    have e : (m - 1) / 8 = m / 8 := by omega
    refine ⟨k1, by rw [hfr, hlen]; omega, p, f, by rw [hfr, ← e]; exact a, b, by rw [hfl]; exact d⟩

theorem tokenIter_inv (mem : List Byte) (pak_len raw_len : Nat) :
    ∀ (n m : Nat) (c c1 : Cursor), c.mask = maskBefore m →
      (flagReads c.reads).length = (m + 7) / 8 →
      (0 < m → ∃ p f, (flagReads c.reads)[(m - 1) / 8]? = some p ∧
        mem[p]? = some f ∧ c.flags = f.val) →
      tokenIter mem pak_len raw_len n c = some c1 →
      c1.mask = maskBefore (m + n) ∧
        (flagReads c1.reads).length = (m + n + 7) / 8 ∧
        (0 < m + n → ∃ p f, (flagReads c1.reads)[(m + n - 1) / 8]? = some p ∧
          mem[p]? = some f ∧ c1.flags = f.val) := by
  intro n
  induction n with
  | zero =>
    intro m c c1 h1 h2 h3 h
    simp only [tokenIter, Option.some.injEq] at h
    subst h
    exact ⟨h1, h2, h3⟩
  | succ n ih =>
    intro m c c1 h1 h2 h3 h
    rw [tokenIter] at h
    split at h
    · split at h
      · rename_i c2 hstep
        obtain ⟨a, b, d⟩ := tokenStep_inv m h1 h2 h3 hstep
        have := ih (m + 1) c2 c1 a b (fun _ => by simpa using d) h
        have e : m + 1 + n = m + (n + 1) := by omega
        rw [e] at this
        exact this
      · simp at h
    · simp at h

/-- Claim C15: in every chunk, when the step that reads token number `n` comes
back to the loop test (`n` earlier tokens were read from the start of the
chunk), a new flag byte was read in that step exactly when `n` is a multiple of
8, so that `n / 8 + 1` flag bytes have been read; the flag register holds flag
byte number `n / 8`; and the token was read as a back-reference (two bytes) iff
bit `7 - n % 8` of that flag byte is 1, as a literal (one byte) otherwise.  The
mask is 0 at the start of every chunk, and the decoded chunk does not depend on
the value the flag register has on entry. -/
theorem C15_flag_bits (mem : List Byte) (pak_len raw_len pak flags n : Nat) (c c1 : Cursor)
    (hiter : tokenIter mem pak_len raw_len n (chunkStart pak flags) = some c)
    (hstep : tokenStep mem pak_len raw_len c = .next c1) :
    c.mask = maskBefore n ∧
      flagReads c1.reads = flagReads c.reads ++ (if n % 8 = 0 then [c.pak] else []) ∧
      (flagReads c1.reads).length = n / 8 + 1 ∧
      (∃ p f, (flagReads c1.reads)[n / 8]? = some p ∧ mem[p]? = some f ∧ c1.flags = f.val ∧
        c1.reads = c.reads ++ (if n % 8 = 0 then [(.flag, c.pak)] else []) ++
          (if f.val.testBit (7 - n % 8) = true then
            [(.backref, c.pak + (if n % 8 = 0 then 1 else 0)),
             (.backref, c.pak + (if n % 8 = 0 then 1 else 0) + 1)]
           else [(.literal, c.pak + (if n % 8 = 0 then 1 else 0))])) ∧
      (chunkStart pak flags).mask = 0 ∧
      (∀ f2 m d, decodeChunk mem pak_len pak flags = .done m d →
        ∃ d2, decodeChunk mem pak_len pak f2 = .done m d2 ∧ d2.pak = d.pak ∧ d2.raw = d.raw ∧
          d2.msgs = d.msgs ∧ d2.reads = d.reads) := by
  obtain ⟨i1, i2, i3⟩ := tokenIter_inv mem pak_len raw_len n 0 (chunkStart pak flags) c
    (by simp [chunkStart, maskBefore]) (by simp [chunkStart, flagReads, headerReads])
    (fun h => absurd h (by omega)) hiter
  simp only [Nat.zero_add] at i1 i2 i3
  obtain ⟨j1, j2, p, f, j3, j4, j5⟩ := tokenStep_inv n i1 i2 i3 hstep
  obtain ⟨k1, k2, k3⟩ := tokenStep_token n i1 hstep
  refine ⟨i1, tokenStep_flagReads n i1 hstep, by rw [j2]; omega, ⟨p, f, j3, j4, j5, ?_⟩, rfl,
    fun f2 m d hd => ?_⟩
  · by_cases hm : n % 8 = 0
    · obtain ⟨f1, hf1, hfl, hr⟩ := k2 hm
      have hff : f.val = f1.val := by rw [← j5, hfl]
      rw [hr, hff]
      simp only [hm, if_true, Nat.sub_zero]
      split <;> simp
    · obtain ⟨hfl, hr⟩ := k3 hm
      have hff : f.val = c.flags := by rw [← j5, hfl]
      rw [hr, hff]
      simp only [hm, if_false, List.append_nil, Nat.add_zero]
  · obtain ⟨d2, a, b, e, g, h⟩ := decodeChunk_flags mem pak_len pak flags f2 m d hd
    exact ⟨d2, a, b, e, g, h⟩

/-- Claim C15 on a chunk with the flag byte 0x40: token 1 is the back-reference. -/
theorem C15_flag_bits_witness :
    tokenIter [16, 4, 0, 0, 0x40, 65, 0x00, 0x00, 0, 0, 0] 8 4 1 (chunkStart 0 0)
        = some { pak := 6, raw := [65], flags := 0x40, mask := 0x80, msgs := [],
                 reads := headerReads 0 ++ [(.flag, 4), (.literal, 5)] } ∧
    tokenStep [16, 4, 0, 0, 0x40, 65, 0x00, 0x00, 0, 0, 0] 8 4
        { pak := 6, raw := [65], flags := 0x40, mask := 0x80, msgs := [],
          reads := headerReads 0 ++ [(.flag, 4), (.literal, 5)] }
      = .next { pak := 8, raw := [65, 65, 65, 65], flags := 0x40, mask := 0x40, msgs := [],
                reads := headerReads 0 ++ [(.flag, 4), (.literal, 5), (.backref, 6),
                  (.backref, 7)] } ∧
    (0x80 : Nat) = maskBefore 1 ∧
    flagReads (headerReads 0 ++ [(.flag, 4), (.literal, 5), (.backref, 6), (.backref, 7)]) = [4] ∧
    (0x40 : Nat).testBit (7 - 1 % 8) = true :=
  ⟨by decide, by decide,
   (C15_flag_bits [16, 4, 0, 0, 0x40, 65, 0x00, 0x00, 0, 0, 0] 8 4 0 0 1
     { pak := 6, raw := [65], flags := 0x40, mask := 0x80, msgs := [],
       reads := headerReads 0 ++ [(.flag, 4), (.literal, 5)] }
     { pak := 8, raw := [65, 65, 65, 65], flags := 0x40, mask := 0x40, msgs := [],
       reads := headerReads 0 ++ [(.flag, 4), (.literal, 5), (.backref, 6), (.backref, 7)] }
     (by decide) (by decide)).1,
   by decide, by decide⟩

/-! ### The end of the container -/

theorem Load_padding {file mem : List Byte} {pak_len : Nat}
    (h : Load file LZS_MINIM LZS_MAXIM = some (mem, pak_len)) (i : Nat) (hi : i < 3) :
    mem[file.length + i]? = some 0 := by
  obtain ⟨hm, _, _, _⟩ := Load_some h
  rw [hm, List.getElem?_append_right (by omega), List.getElem?_replicate]
  simp only [Nat.add_sub_cancel_left, hi, if_true]

theorem decodeChunk_full_msgs {mem : List Byte} {pak_len pak flags raw_len : Nat} {c : Cursor}
    (h : decodeChunk mem pak_len pak flags = .done raw_len c) (hfull : c.raw.length = raw_len) :
    ∀ m, m ∈ c.msgs → m = Msg.wrongDecodedLength := by
  have hr := (decodeChunk_done h).1
  rw [decodeChunk_eq, hr] at h
  simp only at h
  cases hL : tokenLoop mem pak_len raw_len raw_len (chunkStart pak flags) with
  | finished c1 =>
    rw [hL] at h
    simp only [ChunkResult.done.injEq, true_and] at h
    have hb := (tokenLoop_bound mem pak_len raw_len raw_len (chunkStart pak flags) c1
      (by simp [chunkStart]) (Or.inl hL)).2
    by_cases hc : c1.raw.length = raw_len
    · rw [if_neg (by simpa using hc)] at h
      subst h
      intro m hm
      rcases hb m hm with h2 | h2
      · simp [chunkStart] at h2
      · exact h2
    · rw [if_pos hc] at h
      subst h
      exact absurd hfull hc
  | fault c1 => rw [hL] at h; simp at h
  | outOfFuel => rw [hL] at h; simp at h

/-- Claim C16: when a chunk that filled its declared length has consumed its
bitstream exactly up to the end of the input, the byte the chunk loop inspects
next is the first zero byte `Load` left behind the file, not a chunk magic:
the call returns after that chunk, no further chunk is decoded, the output is
what it was with the chunk's bytes appended, and no message is added to those
of the chunk (which can only be `wrong decoded length`, none when the chunk
decoded without warning). -/
theorem C16_clean_end (file mem : List Byte) (pak_len fuel raw_len : Nat) (r : Run)
    (c : Cursor)
    (hload : Load file LZS_MINIM LZS_MAXIM = some (mem, pak_len))
    (hd : decodeChunk mem pak_len r.pak r.flags = .done raw_len c)
    (hfull : c.raw.length = raw_len) (hend : c.pak = file.length) :
    mem[c.pak]? = some 0 ∧
      chunkLoop mem pak_len (fuel + 1) r =
        { status := .returned,
          run := { pak := c.pak, flags := c.flags,
                   final_len := (r.final_len + raw_len) % 4294967296,
                   dest := r.dest ++ c.raw, emptied := r.emptied,
                   msgs := r.msgs ++ c.msgs,
                   reads := r.reads ++ c.reads ++ [(.next, c.pak)] ++ [(.last, c.pak)],
                   chunks := r.chunks
                      ++ [{ start := r.pak, declared := raw_len, saved := c.raw }] } } ∧
      (∀ m, m ∈ c.msgs → m = Msg.wrongDecodedLength) ∧
      (c.msgs = [] → (chunkLoop mem pak_len (fuel + 1) r).run.msgs = r.msgs) := by
  have hpad : mem[c.pak]? = some 0 := by
    have := Load_padding hload 0 (by decide)
    rw [hend]
    simpa using this
  have hloop := chunkLoop_last mem pak_len fuel r raw_len c 0 hd hpad (by decide)
  refine ⟨hpad, hloop, decodeChunk_full_msgs hd hfull, fun h0 => ?_⟩
  rw [hloop, h0]
  simp

/-- Claim C16 on a file made of one chunk of two literals that ends with the
file. -/
theorem C16_clean_end_witness :
    LZS_Decode ([76, 0, 0, 0, 0, 0, 0, 0, 0, 0] ++ [16, 2, 0, 0, 0x00, 65, 66])
      = chunkLoop ([76, 0, 0, 0, 0, 0, 0, 0, 0, 0] ++ [16, 2, 0, 0, 0x00, 65, 66] ++ [0, 0, 0])
          17 (19 + 1)
          { Run.start ([76, 0, 0, 0, 0, 0, 0, 0, 0, 0] ++ [16, 2, 0, 0, 0x00, 65, 66]) with
            pak := 10, dest := [], emptied := true } ∧
    (LZS_Decode ([76, 0, 0, 0, 0, 0, 0, 0, 0, 0] ++ [16, 2, 0, 0, 0x00, 65, 66])).status
      = .returned ∧
    (LZS_Decode ([76, 0, 0, 0, 0, 0, 0, 0, 0, 0] ++ [16, 2, 0, 0, 0x00, 65, 66])).run.msgs = [] ∧
    ([76, 0, 0, 0, 0, 0, 0, 0, 0, 0] ++ [16, 2, 0, 0, 0x00, 65, 66] ++ [0, 0, 0]
      : List Byte)[17]? = some 0 :=
  ⟨by decide, by decide, by decide,
   (C16_clean_end ([76, 0, 0, 0, 0, 0, 0, 0, 0, 0] ++ [16, 2, 0, 0, 0x00, 65, 66])
     ([76, 0, 0, 0, 0, 0, 0, 0, 0, 0] ++ [16, 2, 0, 0, 0x00, 65, 66] ++ [0, 0, 0]) 17 19 2
     { Run.start ([76, 0, 0, 0, 0, 0, 0, 0, 0, 0] ++ [16, 2, 0, 0, 0x00, 65, 66]) with
       pak := 10, dest := [], emptied := true }
     { pak := 17, raw := [65, 66], flags := 0, mask := 0x40, msgs := [],
       reads := headerReads 10 ++ [(.flag, 14), (.literal, 15), (.literal, 16)] }
     (by decide) (by decide) (by decide) (by decide)).1⟩

/-! ### A chunk whose bitstream ends before its declared length -/

/-- Claim C12 fails on the 13-byte file whose chunk header starts at offset 10:
after `pak += 4` the cursor is 14, past `pak_end = 13`, the tests
`pak == pak_end` do not stop the loop, and a flag byte is read at index 14 and
a literal byte at index 15, both in the padding; the next byte inspected, at
index 16, is outside the block `Load` allocated. -/
theorem C12_reads_past_input :
    ([76, 0, 0, 0, 0, 0, 0, 0, 0, 0, 16, 1, 0] : List Byte).length = 13 ∧
      (LZS_Decode [76, 0, 0, 0, 0, 0, 0, 0, 0, 0, 16, 1, 0]).run.reads
        = [(.header, 10), (.header, 11), (.header, 12), (.header, 13), (.flag, 14),
           (.literal, 15), (.next, 16)] ∧
      (LZS_Decode [76, 0, 0, 0, 0, 0, 0, 0, 0, 0, 16, 1, 0]).run.chunks
        = [{ start := 10, declared := 1, saved := [0] }] ∧
      (LZS_Decode [76, 0, 0, 0, 0, 0, 0, 0, 0, 0, 16, 1, 0]).status = .undefined ∧
      ¬ (∀ x, x ∈ (LZS_Decode [76, 0, 0, 0, 0, 0, 0, 0, 0, 0, 16, 1, 0]).run.reads →
          (x.1 = .flag ∨ x.1 = .literal ∨ x.1 = .backref) →
          x.2 < ([76, 0, 0, 0, 0, 0, 0, 0, 0, 0, 16, 1, 0] : List Byte).length) := by
  decide

/-- Claim C20 fails on a chunk whose first token is a back-reference (flag byte
0x80, bytes 0x00 0x00: length 3, offset 1): the copy is started at output
position 0 with offset 1 and reads before the start of the output buffer. -/
theorem C20_offset_unchecked :
    refOffset (refValue 0x00 0x00) = 1 ∧ refLength (refValue 0x00 0x00) = 3 ∧
      tokenStep ([76, 0, 0, 0, 0, 0, 0, 0, 0, 0] ++ [16, 3, 0, 0, 0x80, 0x00, 0x00] ++ [0, 0, 0])
          17 3 (chunkStart 10 0)
        = .fault { pak := 17, raw := [], flags := 0x80, mask := 0x80, msgs := [],
                   reads := headerReads 10 ++ [(.flag, 14), (.backref, 15), (.backref, 16)] } ∧
      copyLoop 1 3 [] = none ∧
      ¬ (refOffset (refValue 0x00 0x00) ≤ (chunkStart 10 0).raw.length) ∧
      (LZS_Decode ([76, 0, 0, 0, 0, 0, 0, 0, 0, 0] ++ [16, 3, 0, 0, 0x80, 0x00, 0x00])).status
        = .undefined := by
  decide

/-- Claim C3 fails on the 30-byte file whose byte 0 is 0x4C and whose only chunk
magic is at the odd offset 11: the block `Load` allocates has 33 bytes, the
scan finds no magic at the even offsets 10 to 32 and goes on to read offset
34, outside the block, instead of rejecting the file as not compressed: no
message is printed and the call does not end with `exit`. -/
theorem C3_scan_leaves_block :
    ([76] ++ List.replicate 10 0 ++ [16] ++ List.replicate 18 0 : List Byte).length = 30 ∧
      ([76] ++ List.replicate 10 0 ++ [16] ++ List.replicate 18 0 : List Byte)[0]? = some 76 ∧
      (∀ i, i < 30 →
        ([76] ++ List.replicate 10 0 ++ [16] ++ List.replicate 18 0 : List Byte)[i]? = some 16 →
        i = 11) ∧
      Load ([76] ++ List.replicate 10 0 ++ [16] ++ List.replicate 18 0) LZS_MINIM LZS_MAXIM
        = some ([76] ++ List.replicate 10 0 ++ [16] ++ List.replicate 21 0, 30) ∧
      ([76] ++ List.replicate 10 0 ++ [16] ++ List.replicate 21 0 : List Byte).length = 33 ∧
      (∀ k, k ≤ 11 →
        ([76] ++ List.replicate 10 0 ++ [16] ++ List.replicate 21 0 : List Byte)[10 + 2 * k]?
          = some 0) ∧
      ([76] ++ List.replicate 10 0 ++ [16] ++ List.replicate 21 0 : List Byte)[10 + 2 * 12]?
        = none ∧
      scan ([76] ++ List.replicate 10 0 ++ [16] ++ List.replicate 21 0) = .fault ∧
      (LZS_Decode ([76] ++ List.replicate 10 0 ++ [16] ++ List.replicate 18 0)).status
        = .undefined ∧
      (LZS_Decode ([76] ++ List.replicate 10 0 ++ [16] ++ List.replicate 18 0)).run.msgs = [] ∧
      (LZS_Decode ([76] ++ List.replicate 10 0 ++ [16] ++ List.replicate 18 0)).status
        ≠ .exited := by
  decide

/-- Claim C4 fails on the 4-byte file 4C 00 00 00, which `Load` accepts: byte 0
is 0x4C and the file holds no chunk magic, but the scan starts with a read at
offset 10 of the 7-byte block, outside it, and the call does not end in the
fatal error `not LZSS encoded`.  It fails also on a truncated chunk (3 bytes
declared, flag byte 0x80, then the last byte 0x10 of the file) and on a chunk
with an over-long back-reference followed by a last byte 0x10: the warning is
printed, then the last byte of the file is taken for the magic of a further
chunk, `pak += 4` steps over its header to the end of the block without a
test against `pak_end`, and the byte inspected next lies outside the block:
the call does not complete. -/
theorem C4_undefined_runs :
    Load [76, 0, 0, 0] LZS_MINIM LZS_MAXIM = some ([76, 0, 0, 0, 0, 0, 0], 4) ∧
      ([76, 0, 0, 0, 0, 0, 0] : List Byte)[10]? = none ∧
      scan [76, 0, 0, 0, 0, 0, 0] = .fault ∧
      (LZS_Decode [76, 0, 0, 0]).status = .undefined ∧
      (LZS_Decode [76, 0, 0, 0]).run.msgs = [] ∧
      (LZS_Decode ([76, 0, 0, 0, 0, 0, 0, 0, 0, 0] ++ [16, 3, 0, 0, 0x80, 0x10])).run.msgs
        = [.unexpectedEnd] ∧
      (LZS_Decode ([76, 0, 0, 0, 0, 0, 0, 0, 0, 0] ++ [16, 3, 0, 0, 0x80, 0x10])).status
        = .undefined ∧
      (LZS_Decode ([76, 0, 0, 0, 0, 0, 0, 0, 0, 0] ++ [16, 3, 0, 0, 0x80, 0x10])).run.chunks
        = [{ start := 10, declared := 3, saved := [] },
           { start := 15, declared := 0, saved := [] }] ∧
      (LZS_Decode ([76, 0, 0, 0, 0, 0, 0, 0, 0, 0]
          ++ [16, 3, 0, 0, 0x80, 0x10])).run.reads.getLast? = some (.next, 19) ∧
      ([76, 0, 0, 0, 0, 0, 0, 0, 0, 0] ++ [16, 3, 0, 0, 0x80, 0x10] ++ [0, 0, 0]
        : List Byte).length = 19 ∧
      (LZS_Decode ([76, 0, 0, 0, 0, 0, 0, 0, 0, 0]
          ++ [16, 4, 0, 0, 0x40, 65, 0x60, 0x00, 0x10])).run.msgs = [.wrongDecodedLength] ∧
      (LZS_Decode ([76, 0, 0, 0, 0, 0, 0, 0, 0, 0]
          ++ [16, 4, 0, 0, 0x40, 65, 0x60, 0x00, 0x10])).status = .undefined ∧
      (LZS_Decode ([76, 0, 0, 0, 0, 0, 0, 0, 0, 0]
          ++ [16, 4, 0, 0, 0x40, 65, 0x60, 0x00, 0x10])).run.chunks
        = [{ start := 10, declared := 4, saved := [65, 65, 65, 65] },
           { start := 18, declared := 0, saved := [] }] ∧
      (LZS_Decode ([76, 0, 0, 0, 0, 0, 0, 0, 0, 0]
          ++ [16, 4, 0, 0, 0x40, 65, 0x60, 0x00, 0x10])).run.reads.getLast?
        = some (.next, 22) ∧
      ([76, 0, 0, 0, 0, 0, 0, 0, 0, 0] ++ [16, 4, 0, 0, 0x40, 65, 0x60, 0x00, 0x10] ++ [0, 0, 0]
        : List Byte).length = 22 := by
  decide

theorem tokenBody_reads (mem : List Byte) (pak_len raw_len : Nat) (c : Cursor)
    (hp : c.pak ≤ pak_len) :
    (tokenBody mem pak_len raw_len c).cursor.pak ≤ pak_len ∧
      ∀ x, x ∈ (tokenBody mem pak_len raw_len c).cursor.reads → x ∈ c.reads ∨ x.2 < pak_len := by
  unfold tokenBody
  split
  · split
    · exact ⟨hp, fun x hx => Or.inl hx⟩
    · rename_i hne
      have hlt : c.pak < pak_len := by omega
      split
      · refine ⟨by simp only [Step.cursor]; omega, fun x hx => ?_⟩
        simp only [Step.cursor, List.mem_append, List.mem_singleton] at hx
        rcases hx with h | h
        · exact Or.inl h
        · exact Or.inr (by rw [h]; exact hlt)
      · refine ⟨hp, fun x hx => ?_⟩
        simp only [Step.cursor, List.mem_append, List.mem_singleton] at hx
        rcases hx with h | h
        · exact Or.inl h
        · exact Or.inr (by rw [h]; exact hlt)
  · split
    · exact ⟨hp, fun x hx => Or.inl hx⟩
    · rename_i hne
      have hlt : c.pak + 1 < pak_len := by omega
      have hrd : ∀ x, x ∈ c.reads ++ [(ReadKind.backref, c.pak), (ReadKind.backref, c.pak + 1)] →
          x ∈ c.reads ∨ x.2 < pak_len := by
        intro x hx
        simp only [List.mem_append, List.mem_cons, List.mem_singleton, List.not_mem_nil,
          or_false] at hx
        rcases hx with h | h | h
        · exact Or.inl h
        · exact Or.inr (by rw [h]; simp only; omega)
        · exact Or.inr (by rw [h]; exact hlt)
      split
      · simp only
        split
        · exact ⟨by simp only [Step.cursor]; omega, hrd⟩
        · exact ⟨by simp only [Step.cursor]; omega, hrd⟩
      · exact ⟨hp, hrd⟩

theorem tokenStep_reads (mem : List Byte) (pak_len raw_len : Nat) (c : Cursor)
    (hp : c.pak ≤ pak_len) :
    (tokenStep mem pak_len raw_len c).cursor.pak ≤ pak_len ∧
      ∀ x, x ∈ (tokenStep mem pak_len raw_len c).cursor.reads → x ∈ c.reads ∨ x.2 < pak_len := by
  unfold tokenStep
  simp only
  split
  · split
    · exact ⟨hp, fun x hx => Or.inl hx⟩
    · rename_i hne
      have hlt : c.pak < pak_len := by omega
      have hrd : ∀ x, x ∈ c.reads ++ [(ReadKind.flag, c.pak)] → x ∈ c.reads ∨ x.2 < pak_len := by
        intro x hx
        simp only [List.mem_append, List.mem_singleton] at hx
        rcases hx with h | h
        · exact Or.inl h
        · exact Or.inr (by rw [h]; exact hlt)
      split
      · rename_i f _
        have h := tokenBody_reads mem pak_len raw_len
          { c with pak := c.pak + 1, flags := f.val, mask := LZS_MASK,
                   reads := c.reads ++ [(.flag, c.pak)] } (by simp only; omega)
        refine ⟨h.1, fun x hx => ?_⟩
        rcases h.2 x hx with h1 | h1
        · exact hrd x h1
        · exact Or.inr h1
      · exact ⟨hp, hrd⟩
  · exact tokenBody_reads mem pak_len raw_len { c with mask := c.mask >>> LZS_SHIFT } hp

/-- While the cursor is not past `pak_end` when the token loop starts, every
byte the loop reads lies before `pak_end`. -/
theorem tokenLoop_reads_in_input (mem : List Byte) (pak_len raw_len : Nat) :
    ∀ (fuel : Nat) (c c1 : Cursor), c.pak ≤ pak_len →
      (tokenLoop mem pak_len raw_len fuel c = .finished c1 ∨
        tokenLoop mem pak_len raw_len fuel c = .fault c1) →
      c1.pak ≤ pak_len ∧ ∀ x, x ∈ c1.reads → x ∈ c.reads ∨ x.2 < pak_len := by
  intro fuel
  induction fuel with
  | zero =>
    intro c c1 hp h
    rw [tokenLoop] at h
    split at h
    · simp at h
    · simp only [Loop.finished.injEq, reduceCtorEq, or_false] at h
      subst h
      exact ⟨hp, fun x hx => Or.inl hx⟩
  | succ n ih =>
    intro c c1 hp h
    rw [tokenLoop] at h
    split at h
    · have hs := tokenStep_reads mem pak_len raw_len c hp
      split at h
      · rename_i c2 hstep
        rw [hstep] at hs
        simp only [Step.cursor] at hs
        obtain ⟨a, b⟩ := ih c2 c1 hs.1 h
        refine ⟨a, fun x hx => ?_⟩
        rcases b x hx with h1 | h1
        · exact hs.2 x h1
        · exact Or.inr h1
      · rename_i c2 hstep
        rw [hstep] at hs
        simp only [Step.cursor] at hs
        simp only [Loop.finished.injEq, reduceCtorEq, or_false] at h
        subst h
        exact hs
      · rename_i c2 hstep
        rw [hstep] at hs
        simp only [Step.cursor] at hs
        simp only [reduceCtorEq, Loop.fault.injEq, false_or] at h
        subst h
        exact hs
    · simp only [Loop.finished.injEq, reduceCtorEq, or_false] at h
      subst h
      exact ⟨hp, fun x hx => Or.inl hx⟩

/-- A chunk whose 4-byte header ends at or before the end of the input reads
its flag, literal and back-reference bytes before the end of the input. -/
theorem decodeChunk_reads_in_input (mem : List Byte) (pak_len pak flags raw_len : Nat)
    (c : Cursor) (hp : pak + 4 ≤ pak_len)
    (h : decodeChunk mem pak_len pak flags = .done raw_len c) :
    c.pak ≤ pak_len ∧
      ∀ x, x ∈ c.reads → (x.1 = .flag ∨ x.1 = .literal ∨ x.1 = .backref) → x.2 < pak_len := by
  have hr := (decodeChunk_done h).1
  rw [decodeChunk_eq, hr] at h
  simp only at h
  cases hL : tokenLoop mem pak_len raw_len raw_len (chunkStart pak flags) with
  | finished c1 =>
    rw [hL] at h
    simp only [ChunkResult.done.injEq, true_and] at h
    obtain ⟨a, b⟩ := tokenLoop_reads_in_input mem pak_len raw_len raw_len
      (chunkStart pak flags) c1 (by simp only [chunkStart]; exact hp) (Or.inl hL)
    have hc : c.pak = c1.pak ∧ c.reads = c1.reads := by
      rw [← h]; split <;> exact ⟨rfl, rfl⟩
    rw [hc.1, hc.2]
    refine ⟨a, fun x hx hk => ?_⟩
    rcases b x hx with h1 | h1
    · simp only [chunkStart, headerReads, List.mem_cons, List.mem_singleton,
        List.not_mem_nil, or_false] at h1
      rcases h1 with h2 | h2 | h2 | h2 <;> rw [h2] at hk <;> simp at hk
    · exact h1
  | fault c1 => rw [hL] at h; simp at h
  | outOfFuel => rw [hL] at h; simp at h

end LZWW
